import Mathlib

/-!
Verification of the activity-aggregation engine of `json_parsing_exercise`.

The source program (`src/json_parsing_exercise/exercise.py`) validates a small
JSON record (`InstagramData` with `periodStart`, `periodEnd`,
`monthlyPostingDay`, `comments`) through pydantic field validators that parse
dates with `datetime.strptime(v, "%d/%m/%y")`, then builds a daily calendar
with polars (`pl.date_range`, a left join against the comment table), derives
`total_activities`, and groups by calendar month (`group_by_dynamic`,
`every="1mo"`).

This file gives a shallow embedding of those operations: calendar dates are a
structure with proleptic-Gregorian day ordinals (exactly Python's
`datetime.toordinal`), data frames are lists of row structures, and the polars
operations are translated to the corresponding list transformations (the left
join keeps one output row per matching right-hand row, as polars does).
-/

/-! ## Calendar dates

Python's `datetime.date` restricted to what the program uses: year, month,
day, ordinal arithmetic, and leap-year rules. -/

structure Date where
  year : Int
  month : Nat
  day : Nat
deriving DecidableEq, Repr

/-- Gregorian leap-year test, as Python's `calendar.isleap`:
`y % 4 == 0 and (y % 100 != 0 or y % 400 == 0)`. -/
def isLeap (y : Int) : Bool :=
  y % 4 == 0 && (y % 100 != 0 || y % 400 == 0)

/-- Number of days in month `m` of year `y` (months `1..12`; `0` otherwise),
as Python's `calendar.monthrange` / the `datetime` constructor's bound. -/
def daysInMonth (y : Int) (m : Nat) : Nat :=
  match m with
  | 1 => 31
  | 2 => if isLeap y then 29 else 28
  | 3 => 31
  | 4 => 30
  | 5 => 31
  | 6 => 30
  | 7 => 31
  | 8 => 31
  | 9 => 30
  | 10 => 31
  | 11 => 30
  | 12 => 31
  | _ => 0

/-- Days in the months strictly before month `m` of year `y`. -/
def monthsBefore (y : Int) (m : Nat) : Nat :=
  ((List.range (m - 1)).map (fun i => daysInMonth y (i + 1))).sum

/-- Days in the years strictly before year `y`, as Python's
`datetime._days_before_year`: `365*(y-1) + (y-1)//4 - (y-1)//100 + (y-1)//400`
(`Int./` is Euclidean division, which agrees with Python's floor division for
the positive divisors used here). -/
def daysBeforeYear (y : Int) : Int :=
  365 * (y - 1) + (y - 1) / 4 - (y - 1) / 100 + (y - 1) / 400

/-- Python's `datetime.date.toordinal`: day number in the proleptic Gregorian
calendar, with `0001-01-01` having ordinal `1`. -/
def Date.toOrdinal (dt : Date) : Int :=
  daysBeforeYear dt.year + (monthsBefore dt.year dt.month : Int) + (dt.day : Int)

/-- The calendar date one day later (Python's `date + timedelta(days=1)`). -/
def Date.next (dt : Date) : Date :=
  if dt.day < daysInMonth dt.year dt.month then ⟨dt.year, dt.month, dt.day + 1⟩
  else if dt.month < 12 then ⟨dt.year, dt.month + 1, 1⟩
  else ⟨dt.year + 1, 1, 1⟩

/-- A well-formed calendar date (what `datetime.date` can hold). -/
def validDate (dt : Date) : Prop :=
  1 ≤ dt.month ∧ dt.month ≤ 12 ∧ 1 ≤ dt.day ∧ dt.day ≤ daysInMonth dt.year dt.month

instance (dt : Date) : Decidable (validDate dt) := by
  unfold validDate; infer_instance

/-- Calendar (lexicographic) strict order on dates. -/
def dateLt (a b : Date) : Prop :=
  a.year < b.year ∨ (a.year = b.year ∧
    (a.month < b.month ∨ (a.month = b.month ∧ a.day < b.day)))

/-- Calendar order on dates. -/
def dateLe (a b : Date) : Prop := dateLt a b ∨ a = b

instance (a b : Date) : Decidable (dateLt a b) := by
  unfold dateLt; infer_instance

instance (a b : Date) : Decidable (dateLe a b) := by
  unfold dateLe; infer_instance

/-! ### Basic calendar lemmas -/

lemma daysInMonth_pos (y : Int) (m : Nat) (h1 : 1 ≤ m) (h12 : m ≤ 12) :
    1 ≤ daysInMonth y m := by
  interval_cases m <;> simp [daysInMonth] <;> split <;> omega

lemma daysInMonth_le (y : Int) (m : Nat) : daysInMonth y m ≤ 31 := by
  unfold daysInMonth
  split <;> first | omega | (split <;> omega)

lemma monthsBefore_succ (y : Int) (m : Nat) :
    monthsBefore y (m + 1) = monthsBefore y m + daysInMonth y m := by
  cases m with
  | zero => simp [monthsBefore, daysInMonth]
  | succ k =>
      simp only [monthsBefore]
      have h1 : k + 1 + 1 - 1 = k + 1 := by omega
      have h2 : k + 1 - 1 = k := by omega
      rw [h1, h2, List.range_succ]
      simp

lemma monthsBefore_mono (y : Int) {m m' : Nat} (h : m ≤ m') :
    monthsBefore y m ≤ monthsBefore y m' := by
  induction m' with
  | zero =>
      have hm : m = 0 := Nat.le_zero.mp h
      simp [hm]
  | succ k ih =>
      rcases Nat.lt_or_ge m (k + 1) with hk | hk
      · have := ih (by omega)
        rw [monthsBefore_succ]; omega
      · have : m = k + 1 := by omega
        subst this; omega

/-- The full year in days, via the month table. -/
lemma monthsBefore_thirteen (y : Int) :
    monthsBefore y 13 = if isLeap y then 366 else 365 := by
  have h12 : monthsBefore y 13 =
      monthsBefore y 1 + daysInMonth y 1 + daysInMonth y 2 + daysInMonth y 3 +
      daysInMonth y 4 + daysInMonth y 5 + daysInMonth y 6 + daysInMonth y 7 +
      daysInMonth y 8 + daysInMonth y 9 + daysInMonth y 10 + daysInMonth y 11 +
      daysInMonth y 12 := by
    rw [show (13 : Nat) = 12 + 1 by rfl, monthsBefore_succ, monthsBefore_succ,
      monthsBefore_succ, monthsBefore_succ, monthsBefore_succ, monthsBefore_succ,
      monthsBefore_succ, monthsBefore_succ, monthsBefore_succ, monthsBefore_succ,
      monthsBefore_succ, monthsBefore_succ]
  rw [h12]
  by_cases h : isLeap y <;>
    simp [daysInMonth, monthsBefore, h]

/-- One more year of `daysBeforeYear` adds the length of that year. -/
lemma daysBeforeYear_succ (y : Int) :
    daysBeforeYear (y + 1) = daysBeforeYear y + (if isLeap y then 366 else 365) := by
  have h4 : y / 4 - (y - 1) / 4 = if y % 4 = 0 then 1 else 0 := by
    split <;> omega
  have h100 : y / 100 - (y - 1) / 100 = if y % 100 = 0 then 1 else 0 := by
    split <;> omega
  have h400 : y / 400 - (y - 1) / 400 = if y % 400 = 0 then 1 else 0 := by
    split <;> omega
  have hleap : (if isLeap y then (366 : Int) else 365) =
      365 + (if y % 4 = 0 then (1 : Int) else 0) - (if y % 100 = 0 then 1 else 0)
        + (if y % 400 = 0 then 1 else 0) := by
    unfold isLeap
    by_cases hy4 : y % 4 = 0 <;> by_cases hy100 : y % 100 = 0 <;>
      by_cases hy400 : y % 400 = 0 <;>
      simp [hy4, hy100, hy400] <;> omega
  unfold daysBeforeYear
  omega

/-! ### Day ordinals and the successor date -/

lemma validDate_next {dt : Date} (h : validDate dt) : validDate (Date.next dt) := by
  obtain ⟨hm1, hm12, hd1, hdm⟩ := h
  by_cases h1 : dt.day < daysInMonth dt.year dt.month
  · simp only [Date.next, if_pos h1]
    show 1 ≤ dt.month ∧ dt.month ≤ 12 ∧ 1 ≤ dt.day + 1 ∧
      dt.day + 1 ≤ daysInMonth dt.year dt.month
    exact ⟨hm1, hm12, by omega, by omega⟩
  · by_cases h2 : dt.month < 12
    · simp only [Date.next, if_neg h1, if_pos h2]
      show 1 ≤ dt.month + 1 ∧ dt.month + 1 ≤ 12 ∧ 1 ≤ 1 ∧
        1 ≤ daysInMonth dt.year (dt.month + 1)
      exact ⟨by omega, by omega, by omega,
        daysInMonth_pos dt.year (dt.month + 1) (by omega) (by omega)⟩
    · simp only [Date.next, if_neg h1, if_neg h2]
      show 1 ≤ 1 ∧ 1 ≤ 12 ∧ 1 ≤ 1 ∧ 1 ≤ daysInMonth (dt.year + 1) 1
      simp [daysInMonth]

lemma toOrdinal_next {dt : Date} (h : validDate dt) :
    (Date.next dt).toOrdinal = dt.toOrdinal + 1 := by
  obtain ⟨hm1, hm12, hd1, hdm⟩ := h
  unfold Date.next
  split
  · simp only [Date.toOrdinal]
    push_cast
    omega
  · rename_i hday
    split
    · rename_i hmon
      simp only [Date.toOrdinal, monthsBefore_succ]
      push_cast
      omega
    · rename_i hmon
      have hm : dt.month = 12 := by omega
      have hdim : daysInMonth dt.year 12 = 31 := rfl
      have hd : dt.day = 31 := by
        rw [hm] at hdm hday
        omega
      simp only [Date.toOrdinal, daysBeforeYear_succ, hm, hd]
      have h13 := monthsBefore_thirteen dt.year
      have h12 : monthsBefore dt.year 13 = monthsBefore dt.year 12 + 31 := by
        rw [show (13 : Nat) = 12 + 1 by rfl, monthsBefore_succ, hdim]
      have h1 : monthsBefore (dt.year + 1) 1 = 0 := by simp [monthsBefore]
      rw [h1]
      split <;> rename_i hleap
      · simp only [if_pos hleap] at h13
        push_cast
        omega
      · simp only [if_neg hleap] at h13
        push_cast
        omega

/-- Day-of-year bounds for a valid date. -/
lemma dayOfYear_bounds {dt : Date} (h : validDate dt) :
    1 ≤ monthsBefore dt.year dt.month + dt.day ∧
    monthsBefore dt.year dt.month + dt.day ≤ monthsBefore dt.year 13 := by
  obtain ⟨hm1, hm12, hd1, hdm⟩ := h
  constructor
  · omega
  · have hstep : monthsBefore dt.year dt.month + dt.day ≤
        monthsBefore dt.year (dt.month + 1) := by
      rw [monthsBefore_succ]; omega
    have hmono := monthsBefore_mono dt.year (show dt.month + 1 ≤ 13 by omega)
    omega

lemma daysBeforeYear_mono {y y' : Int} (h : y ≤ y') :
    daysBeforeYear y + 365 * (y' - y) ≤ daysBeforeYear y' := by
  have hgen : ∀ n : Int, y ≤ n → daysBeforeYear y + 365 * (n - y) ≤ daysBeforeYear n :=
    Int.le_induction (by simp) (fun k _ ih => by
      have hs := daysBeforeYear_succ k
      split at hs <;> omega)
  exact hgen y' h

/-- `toOrdinal` is strictly monotone on valid dates (calendar order agrees
with ordinal order). -/
lemma toOrdinal_lt_of_dateLt {a b : Date} (ha : validDate a) (hb : validDate b)
    (hab : dateLt a b) : a.toOrdinal < b.toOrdinal := by
  obtain ⟨ham1, ham12, had1, hadm⟩ := ha
  obtain ⟨hbm1, hbm12, hbd1, hbdm⟩ := hb
  rcases hab with hy | ⟨hy, hrest⟩
  · -- earlier year: a stays within its year, b starts after it
    have hub := dayOfYear_bounds ⟨ham1, ham12, had1, hadm⟩
    have hlb := dayOfYear_bounds ⟨hbm1, hbm12, hbd1, hbdm⟩
    have h13 := monthsBefore_thirteen a.year
    have hsucc := daysBeforeYear_succ a.year
    have hmono := daysBeforeYear_mono (show a.year + 1 ≤ b.year by omega)
    simp only [Date.toOrdinal]
    split at hsucc <;> rename_i hleap
    · simp only [if_pos hleap] at h13
      omega
    · simp only [if_neg hleap] at h13
      omega
  · rcases hrest with hm | ⟨hm, hd⟩
    · -- same year, earlier month
      have hstep : monthsBefore a.year a.month + a.day ≤
          monthsBefore a.year (a.month + 1) := by
        rw [monthsBefore_succ]; omega
      have hmono := monthsBefore_mono a.year (show a.month + 1 ≤ b.month by omega)
      rw [hy] at hstep hmono
      simp only [Date.toOrdinal, hy]
      omega
    · -- same year and month, earlier day
      simp only [Date.toOrdinal, hy, hm]
      omega

lemma dateLt_trichotomy (a b : Date) : dateLt a b ∨ a = b ∨ dateLt b a := by
  obtain ⟨ay, am, ad⟩ := a
  obtain ⟨by_, bm, bd⟩ := b
  simp only [dateLt, Date.mk.injEq]
  rcases lt_trichotomy ay by_ with h | h | h
  · exact Or.inl (Or.inl h)
  · subst h
    rcases Nat.lt_trichotomy am bm with h2 | h2 | h2
    · exact Or.inl (Or.inr ⟨rfl, Or.inl h2⟩)
    · subst h2
      rcases Nat.lt_trichotomy ad bd with h3 | h3 | h3
      · exact Or.inl (Or.inr ⟨rfl, Or.inr ⟨rfl, h3⟩⟩)
      · subst h3; exact Or.inr (Or.inl ⟨rfl, rfl, rfl⟩)
      · exact Or.inr (Or.inr (Or.inr ⟨rfl, Or.inr ⟨rfl, h3⟩⟩))
    · exact Or.inr (Or.inr (Or.inr ⟨rfl, Or.inl h2⟩))
  · exact Or.inr (Or.inr (Or.inl h))

lemma toOrdinal_inj {a b : Date} (ha : validDate a) (hb : validDate b)
    (h : a.toOrdinal = b.toOrdinal) : a = b := by
  rcases dateLt_trichotomy a b with hlt | heq | hgt
  · have := toOrdinal_lt_of_dateLt ha hb hlt; omega
  · exact heq
  · have := toOrdinal_lt_of_dateLt hb ha hgt; omega

lemma dateLe_iff_toOrdinal_le {a b : Date} (ha : validDate a) (hb : validDate b) :
    dateLe a b ↔ a.toOrdinal ≤ b.toOrdinal := by
  constructor
  · rintro (hlt | rfl)
    · exact le_of_lt (toOrdinal_lt_of_dateLt ha hb hlt)
    · exact le_refl _
  · intro h
    rcases dateLt_trichotomy a b with hlt | heq | hgt
    · exact Or.inl hlt
    · exact Or.inr heq
    · have := toOrdinal_lt_of_dateLt hb ha hgt; omega

lemma dateLt_iff_toOrdinal_lt {a b : Date} (ha : validDate a) (hb : validDate b) :
    dateLt a b ↔ a.toOrdinal < b.toOrdinal := by
  constructor
  · exact toOrdinal_lt_of_dateLt ha hb
  · intro h
    rcases dateLt_trichotomy a b with hlt | heq | hgt
    · exact hlt
    · subst heq; omega
    · have := toOrdinal_lt_of_dateLt hb ha hgt; omega

/-! ## The date range

`pl.date_range(periodStart, periodEnd, eager=True)`: every calendar date from
`periodStart` to `periodEnd` inclusive (empty when the end precedes the
start), here produced by iterating the successor date. -/

def dateList (s : Date) : Nat → List Date
  | 0 => []
  | n + 1 => s :: dateList (Date.next s) n

lemma dateList_length (s : Date) (n : Nat) : (dateList s n).length = n := by
  induction n generalizing s with
  | zero => rfl
  | succ k ih => simp [dateList, ih]

lemma dateList_valid {s : Date} : ∀ {n : Nat}, validDate s →
    ∀ d ∈ dateList s n, validDate d := by
  intro n
  induction n generalizing s with
  | zero => intro _ d hd; simp [dateList] at hd
  | succ k ih =>
      intro hs d hd
      rcases List.mem_cons.mp hd with rfl | hd'
      · exact hs
      · exact ih (validDate_next hs) d hd'

lemma dateList_map_toOrdinal : ∀ (n : Nat) {s : Date}, validDate s →
    (dateList s n).map Date.toOrdinal
      = (List.range n).map (fun i : Nat => s.toOrdinal + (i : Int)) := by
  intro n
  induction n with
  | zero => intro s _; simp [dateList]
  | succ k ih =>
      intro s hs
      have hcons : (dateList s (k + 1)).map Date.toOrdinal =
          s.toOrdinal :: (dateList (Date.next s) k).map Date.toOrdinal := by
        simp [dateList]
      rw [hcons, ih (validDate_next hs), toOrdinal_next hs, List.range_succ_eq_map,
        List.map_cons, List.map_map]
      congr 1
      · simp
      · apply List.map_congr_left
        intro i _
        simp only [Function.comp_apply]
        push_cast
        ring

lemma mem_dateList_iff {s : Date} (hs : validDate s) (n : Nat) (d : Date) :
    d ∈ dateList s n ↔
      validDate d ∧ s.toOrdinal ≤ d.toOrdinal ∧ d.toOrdinal < s.toOrdinal + n := by
  induction n generalizing s with
  | zero =>
      constructor
      · intro hd
        simp [dateList] at hd
      · rintro ⟨_, h1, h2⟩
        exfalso
        push_cast at h2
        omega
  | succ k ih =>
      simp only [dateList, List.mem_cons]
      constructor
      · rintro (rfl | hd')
        · exact ⟨hs, le_refl _, by omega⟩
        · obtain ⟨hv, h1, h2⟩ := (ih (validDate_next hs)).mp hd'
          rw [toOrdinal_next hs] at h1 h2
          exact ⟨hv, by omega, by push_cast; omega⟩
      · rintro ⟨hv, h1, h2⟩
        by_cases heq : d.toOrdinal = s.toOrdinal
        · exact Or.inl (toOrdinal_inj hv hs heq)
        · refine Or.inr ((ih (validDate_next hs)).mpr ⟨hv, ?_, ?_⟩)
          · rw [toOrdinal_next hs]; omega
          · rw [toOrdinal_next hs]
            push_cast at h2 ⊢
            omega

lemma dateList_nodup {s : Date} (hs : validDate s) (n : Nat) :
    (dateList s n).Nodup := by
  have hmap := dateList_map_toOrdinal n hs
  have : ((dateList s n).map Date.toOrdinal).Nodup := by
    rw [hmap]
    refine List.Nodup.map ?_ (List.nodup_range n)
    intro i j hij
    have hij' : s.toOrdinal + (i : Int) = s.toOrdinal + (j : Int) := hij
    omega
  exact this.of_map

/-! ## Validated input model

`Comment` and `InstagramData` hold already-validated data: pydantic parses
the date strings into `datetime` values (here `Date`) before the model is
constructed. -/

structure Comment where
  date : Date
  user : String
  count : Int
deriving DecidableEq, Repr

structure InstagramData where
  periodStart : Date
  periodEnd : Date
  monthlyPostingDay : Int
  comments : List Comment
deriving DecidableEq, Repr

/-! ## Daily calendar builder (`ActivityAggregator.initialise_daily_data`) -/

/-- One row of `daily_data_df`. `total_activities` is `none` until
`calculate_daily_sums` adds the column. -/
structure DailyRow where
  date : Date
  post_day : Int
  num_comments : Int
  total_activities : Option Int
deriving DecidableEq, Repr

/-- Number of rows `pl.date_range` produces: `(periodEnd - periodStart).days + 1`,
clamped at `0` when the end precedes the start. -/
def periodLength (g : InstagramData) : Nat :=
  (g.periodEnd.toOrdinal - g.periodStart.toOrdinal + 1).toNat

/-- The rows the left join emits for one calendar date `d`: `post_day` from the
`when/then/otherwise` on `dt.day()`, `num_comments = 0` joined against every
comment whose date equals `d` (then `fill_null(0)` and the column sum). When
no comment matches, the single row keeps `count = null → 0`; when `k` comments
match, the join duplicates the calendar row `k` times, once per comment. -/
def dailyRowsFor (g : InstagramData) (d : Date) : List DailyRow :=
  if (g.comments.filter (fun c => decide (c.date = d))).isEmpty then
    [⟨d, if (d.day : Int) = g.monthlyPostingDay then 1 else 0, 0 + 0, none⟩]
  else
    (g.comments.filter (fun c => decide (c.date = d))).map
      (fun c => ⟨d, if (d.day : Int) = g.monthlyPostingDay then 1 else 0, 0 + c.count, none⟩)

/-- `ActivityAggregator.initialise_daily_data`: the expanded date range, then
the `post_day` / `num_comments` columns and the left join with the comment
frame, realized per date by `dailyRowsFor` (the join keeps the left frame's
date order, and emits the matches of one date contiguously in comment
order). -/
def initialise_daily_data (g : InstagramData) : List DailyRow :=
  (dateList g.periodStart (periodLength g)).flatMap (dailyRowsFor g)

lemma dailyRowsFor_ne_nil (g : InstagramData) (d : Date) : dailyRowsFor g d ≠ [] := by
  unfold dailyRowsFor
  by_cases hms : (g.comments.filter (fun c => decide (c.date = d))).isEmpty
  · rw [if_pos hms]
    simp
  · rw [if_neg hms]
    intro hmap
    rw [List.map_eq_nil_iff] at hmap
    rw [hmap] at hms
    simp at hms

lemma dailyRowsFor_date (g : InstagramData) (d : Date) :
    ∀ r ∈ dailyRowsFor g d, r.date = d := by
  intro r hr
  unfold dailyRowsFor at hr
  by_cases hms : (g.comments.filter (fun c => decide (c.date = d))).isEmpty
  · rw [if_pos hms] at hr
    rw [List.mem_singleton] at hr
    subst hr
    rfl
  · rw [if_neg hms] at hr
    obtain ⟨c, _, rfl⟩ := List.mem_map.mp hr
    rfl

lemma dailyRowsFor_post_day (g : InstagramData) (d : Date) :
    ∀ r ∈ dailyRowsFor g d,
      r.post_day = if (d.day : Int) = g.monthlyPostingDay then 1 else 0 := by
  intro r hr
  unfold dailyRowsFor at hr
  by_cases hms : (g.comments.filter (fun c => decide (c.date = d))).isEmpty
  · rw [if_pos hms] at hr
    rw [List.mem_singleton] at hr
    subst hr
    rfl
  · rw [if_neg hms] at hr
    obtain ⟨c, _, rfl⟩ := List.mem_map.mp hr
    rfl

/-- The comment counts carried by the rows of one date sum to the total count
of the comments on that date (the single `null → 0` row when there are none). -/
lemma dailyRowsFor_num_comments_sum (g : InstagramData) (d : Date) :
    ((dailyRowsFor g d).map DailyRow.num_comments).sum
      = ((g.comments.filter (fun c => decide (c.date = d))).map Comment.count).sum := by
  unfold dailyRowsFor
  by_cases hms : (g.comments.filter (fun c => decide (c.date = d))).isEmpty
  · rw [if_pos hms]
    rw [List.isEmpty_iff] at hms
    simp [hms]
  · rw [if_neg hms, List.map_map]
    simp [Function.comp_def]

/-! ## Daily totals calculator (`ActivityAggregator.calculate_daily_sums`) -/

/-- `calculate_daily_sums`: `with_columns((post_day + num_comments).alias("total_activities"))`
— writes the `total_activities` column (replacing it if it already exists)
and leaves every other column unchanged. -/
def calculate_daily_sums (df : List DailyRow) : List DailyRow :=
  df.map (fun r => { r with total_activities := some (r.post_day + r.num_comments) })

/-! ## Monthly aggregator (`ActivityAggregator.calculate_monthly_aggregates`) -/

/-- One row of `monthly_data_df`: the window label (renamed `month_date`),
`num_posts = post_day.sum()` and `num_comments = num_comments.sum()`. -/
structure MonthlyRow where
  month_date : Date
  num_posts : Int
  num_comments : Int
deriving DecidableEq, Repr

/-- The month bucket of a date: `group_by_dynamic("date", every="1mo")` uses
calendar-month windows, so two dates share a window iff they share year and
month. -/
def monthKey (d : Date) : Int × Nat := (d.year, d.month)

/-- The label of a month window (`label="left"` default): the first day of the
calendar month. -/
def monthStart (d : Date) : Date := ⟨d.year, d.month, 1⟩

/-- Strict order on month buckets (window order). -/
def monthLt (a b : Int × Nat) : Prop := a.1 < b.1 ∨ (a.1 = b.1 ∧ a.2 < b.2)

/-- Non-strict order on month buckets. -/
def monthLe (a b : Int × Nat) : Prop := monthLt a b ∨ a = b

instance (a b : Int × Nat) : Decidable (monthLt a b) := by
  unfold monthLt; infer_instance

instance (a b : Int × Nat) : Decidable (monthLe a b) := by
  unfold monthLe; infer_instance

lemma monthLt_of_le_of_ne {a b : Int × Nat} (h : monthLe a b) (hne : a ≠ b) :
    monthLt a b := by
  rcases h with h | rfl
  · exact h
  · exact absurd rfl hne

/-- Split a frame into its runs of consecutive rows sharing a month bucket,
each run as (first row, later rows). `group_by_dynamic` requires the frame to
be sorted by the index column; on a date-sorted frame these runs are exactly
the month windows holding at least one row, in window order. -/
def monthRuns : List DailyRow → List (DailyRow × List DailyRow)
  | [] => []
  | r :: rs =>
    match monthRuns rs with
    | [] => [(r, [])]
    | (s, g) :: gs =>
      if monthKey r.date = monthKey s.date then (r, s :: g) :: gs
      else (r, []) :: (s, g) :: gs

/-- `calculate_monthly_aggregates`: one output row per month window, labelled
with the window start, aggregating `post_day.sum()` (as `num_posts`) and
`num_comments.sum()`. `total_activities` is not read. -/
def calculate_monthly_aggregates (df : List DailyRow) : List MonthlyRow :=
  (monthRuns df).map (fun p =>
    ⟨monthStart p.1.date,
     ((p.1 :: p.2).map DailyRow.post_day).sum,
     ((p.1 :: p.2).map DailyRow.num_comments).sum⟩)

/-! ### Grouping lemmas -/

lemma monthRuns_cons (r : DailyRow) (rs : List DailyRow) :
    ∃ g gs, monthRuns (r :: rs) = (r, g) :: gs := by
  cases h : monthRuns rs with
  | nil => exact ⟨[], [], by simp [monthRuns, h]⟩
  | cons p gs =>
      obtain ⟨s, g⟩ := p
      by_cases hk : monthKey r.date = monthKey s.date
      · exact ⟨s :: g, gs, by simp [monthRuns, h, hk]⟩
      · exact ⟨[], (s, g) :: gs, by simp [monthRuns, h, hk]⟩

/-- The runs partition the frame. -/
lemma monthRuns_flatten : ∀ df : List DailyRow,
    (monthRuns df).flatMap (fun p => p.1 :: p.2) = df := by
  intro df
  induction df with
  | nil => rfl
  | cons r rs ih =>
      cases h : monthRuns rs with
      | nil =>
          rw [h] at ih
          simp at ih
          simp [monthRuns, h, ih]
      | cons p gs =>
          obtain ⟨s, g⟩ := p
          rw [h] at ih
          by_cases hk : monthKey r.date = monthKey s.date
          · simp only [monthRuns, h, if_pos hk]
            simp only [List.flatMap_cons] at ih ⊢
            simp [← ih]
          · simp only [monthRuns, h, if_neg hk]
            simp only [List.flatMap_cons] at ih ⊢
            simp [← ih]

/-- Every row of a run shares the month bucket of the run's first row. -/
lemma monthRuns_key : ∀ (df : List DailyRow), ∀ p ∈ monthRuns df,
    ∀ r ∈ p.2, monthKey r.date = monthKey p.1.date := by
  intro df
  induction df with
  | nil => intro p hp; simp [monthRuns] at hp
  | cons r rs ih =>
      intro p hp q hq
      cases h : monthRuns rs with
      | nil =>
          rw [monthRuns, h] at hp
          simp at hp
          subst hp
          simp at hq
      | cons p' gs =>
          obtain ⟨s, g⟩ := p'
          rw [monthRuns, h] at hp
          dsimp only at hp
          by_cases hk : monthKey r.date = monthKey s.date
          · rw [if_pos hk] at hp
            rcases List.mem_cons.mp hp with rfl | hp'
            · rcases List.mem_cons.mp hq with rfl | hq'
              · exact hk.symm
              · have := ih (s, g) (by rw [h]; exact List.mem_cons_self _ _) q hq'
                simpa [hk] using this
            · exact ih p (by rw [h]; exact List.mem_cons_of_mem _ hp') q hq
          · rw [if_neg hk] at hp
            rcases List.mem_cons.mp hp with rfl | hp'
            · simp at hq
            · exact ih p (by rw [h]; exact hp') q hq

lemma chain_of_forall_eq {l : List (Int × Nat)} {k : Int × Nat}
    (h : ∀ x ∈ l, x = k) : List.Chain' monthLe l := by
  induction l with
  | nil => simp
  | cons a l ih =>
      cases l with
      | nil => simp
      | cons b l' =>
          rw [List.chain'_cons]
          refine ⟨?_, ih ?_⟩
          · rw [h a (by simp), h b (by simp)]
            exact Or.inr rfl
          · intro x hx
            exact h x (List.mem_cons_of_mem _ hx)

/-- On a month-sorted frame, the first rows of the runs have strictly
increasing month buckets. -/
lemma monthRuns_heads_chain : ∀ df : List DailyRow,
    List.Chain' monthLe (df.map (fun r => monthKey r.date)) →
    List.Chain' monthLt ((monthRuns df).map (fun p => monthKey p.1.date)) := by
  intro df
  induction df with
  | nil => intro _; simp [monthRuns]
  | cons r rs ih =>
      intro hchain
      cases rs with
      | nil => simp [monthRuns]
      | cons x rs' =>
          obtain ⟨g, gs, hx⟩ := monthRuns_cons x rs'
          have hrx : monthLe (monthKey r.date) (monthKey x.date) :=
            (List.chain'_cons.mp hchain).1
          have htail := (List.chain'_cons.mp hchain).2
          have IH := ih htail
          rw [hx] at IH
          rw [monthRuns, hx]
          dsimp only
          by_cases hk : monthKey r.date = monthKey x.date
          · rw [if_pos hk]
            simp only [List.map_cons] at IH ⊢
            rw [hk]
            exact IH
          · rw [if_neg hk]
            simp only [List.map_cons] at IH ⊢
            rw [List.chain'_cons]
            exact ⟨monthLt_of_le_of_ne hrx hk, IH⟩

lemma monthKey_le_next (d : Date) : monthLe (monthKey d) (monthKey (Date.next d)) := by
  unfold Date.next
  split
  · exact Or.inr rfl
  · split
    · refine Or.inl (Or.inr ⟨rfl, ?_⟩)
      show d.month < d.month + 1
      omega
    · refine Or.inl (Or.inl ?_)
      show d.year < d.year + 1
      omega

lemma dateList_keys_chain : ∀ (n : Nat) (s : Date),
    List.Chain' monthLe ((dateList s n).map monthKey) := by
  intro n
  induction n with
  | zero => intro s; simp [dateList]
  | succ k ih =>
      intro s
      cases k with
      | zero => simp [dateList]
      | succ j =>
          have hih := ih (Date.next s)
          have hshape : (dateList s (j + 1 + 1)).map monthKey =
              monthKey s :: (dateList (Date.next s) (j + 1)).map monthKey := rfl
          rw [hshape]
          rw [List.chain'_cons']
          refine ⟨?_, hih⟩
          intro b hb
          have hshape2 : (dateList (Date.next s) (j + 1)).map monthKey =
              monthKey (Date.next s) :: (dateList (Date.next (Date.next s)) j).map monthKey := rfl
          rw [hshape2] at hb
          simp at hb
          rw [← hb]
          exact monthKey_le_next s

lemma flatMap_head_key (g : InstagramData) (ds : List Date) :
    ∀ y ∈ ((ds.flatMap (dailyRowsFor g)).map (fun r => monthKey r.date)).head?,
      ∃ d ∈ ds.head?, y = monthKey d := by
  cases ds with
  | nil => simp
  | cons d ds' =>
      obtain ⟨b, bs, hb⟩ := List.exists_cons_of_ne_nil (dailyRowsFor_ne_nil g d)
      intro y hy
      rw [List.flatMap_cons, hb] at hy
      simp only [List.cons_append, List.map_cons, List.head?_cons, Option.mem_some_iff] at hy
      refine ⟨d, by simp, ?_⟩
      have hbd : b.date = d := dailyRowsFor_date g d b (by rw [hb]; simp)
      rw [← hy, hbd]

/-- The daily frame's month buckets are non-decreasing (its dates ascend). -/
lemma rows_keys_chain (g : InstagramData) (ds : List Date)
    (hds : List.Chain' monthLe (ds.map monthKey)) :
    List.Chain' monthLe ((ds.flatMap (dailyRowsFor g)).map (fun r => monthKey r.date)) := by
  induction ds with
  | nil => simp
  | cons d ds' ih =>
      rw [List.flatMap_cons, List.map_append]
      have hblock : List.Chain' monthLe
          ((dailyRowsFor g d).map (fun r => monthKey r.date)) := by
        refine chain_of_forall_eq (k := monthKey d) ?_
        intro x hx
        obtain ⟨r, hr, rfl⟩ := List.mem_map.mp hx
        rw [dailyRowsFor_date g d r hr]
      have hd' : ∀ b ∈ (ds'.map monthKey).head?, monthLe (monthKey d) b :=
        (List.chain'_cons'.mp (by rwa [List.map_cons] at hds)).1
      have htail := (List.chain'_cons'.mp (by rwa [List.map_cons] at hds)).2
      refine List.Chain'.append hblock (ih htail) ?_
      intro x hx y hy
      obtain ⟨d', hd'mem, rfl⟩ := flatMap_head_key g ds' y hy
      have hx' : x = monthKey d := by
        have := List.mem_of_mem_getLast? hx
        obtain ⟨r, hr, rfl⟩ := List.mem_map.mp this
        rw [dailyRowsFor_date g d r hr]
      rw [hx']
      refine hd' (monthKey d') ?_
      rw [List.head?_map]
      simp only [Option.mem_def] at hd'mem ⊢
      rw [hd'mem]
      rfl

/-! ### Sum bookkeeping -/

lemma map_sum_flatMap (f : Date → List DailyRow) (h : DailyRow → Int) (l : List Date) :
    ((l.flatMap f).map h).sum = (l.map (fun d => ((f d).map h).sum)).sum := by
  induction l with
  | nil => rfl
  | cons d l ih => simp [List.flatMap_cons, ih]

lemma map_sum_runs (h : DailyRow → Int) (l : List (DailyRow × List DailyRow)) :
    ((l.flatMap (fun p => p.1 :: p.2)).map h).sum
      = (l.map (fun p => ((p.1 :: p.2).map h).sum)).sum := by
  induction l with
  | nil => rfl
  | cons p l ih =>
      simp only [List.flatMap_cons, List.map_append, List.sum_append, List.map_cons,
        List.sum_cons, ih]

/-- `monthRuns` commutes with any row map that preserves the date column. -/
lemma monthRuns_map (u : DailyRow → DailyRow) (hu : ∀ r, (u r).date = r.date) :
    ∀ df : List DailyRow,
      monthRuns (df.map u) = (monthRuns df).map (fun p => (u p.1, p.2.map u)) := by
  intro df
  induction df with
  | nil => rfl
  | cons r rs ih =>
      cases h : monthRuns rs with
      | nil =>
          rw [List.map_cons, monthRuns, ih, h, monthRuns, h]
          rfl
      | cons p gs =>
          obtain ⟨s, g⟩ := p
          rw [List.map_cons, monthRuns, ih, h, monthRuns, h]
          dsimp only [List.map_cons]
          by_cases hk : monthKey r.date = monthKey s.date
          · rw [if_pos (by rw [hu r, hu s]; exact hk), if_pos hk]
            rfl
          · rw [if_neg (by rw [hu r, hu s]; exact hk), if_neg hk]
            rfl

/-- C4: after `calculate_daily_sums`, every row satisfies
`total_activities = post_day + num_comments`; running it again reproduces the
same frame (same `total_activities` column), and the `date`, `post_day` and
`num_comments` columns are untouched. -/
theorem C4_daily_totals (df : List DailyRow) :
    calculate_daily_sums (calculate_daily_sums df) = calculate_daily_sums df
    ∧ ((calculate_daily_sums df).all
        (fun r => r.total_activities == some (r.post_day + r.num_comments))) = true
    ∧ (calculate_daily_sums df).map (fun r => (r.date, r.post_day, r.num_comments))
        = df.map (fun r => (r.date, r.post_day, r.num_comments)) := by
  refine ⟨?_, ?_, ?_⟩
  · unfold calculate_daily_sums
    rw [List.map_map]
    rfl
  · rw [List.all_eq_true]
    intro r hr
    obtain ⟨x, _, rfl⟩ := List.mem_map.mp hr
    simp
  · unfold calculate_daily_sums
    rw [List.map_map]
    rfl

/-- C5: the monthly aggregation conserves both columns — summing `num_posts`
over the monthly rows gives the total `post_day` of the daily frame, and
likewise for `num_comments`. -/
theorem C5_monthly_conservation (df : List DailyRow) :
    ((calculate_monthly_aggregates df).map MonthlyRow.num_posts).sum
        = (df.map DailyRow.post_day).sum
    ∧ ((calculate_monthly_aggregates df).map MonthlyRow.num_comments).sum
        = (df.map DailyRow.num_comments).sum := by
  constructor
  · have h1 : ((calculate_monthly_aggregates df).map MonthlyRow.num_posts).sum
        = ((monthRuns df).map (fun p => ((p.1 :: p.2).map DailyRow.post_day).sum)).sum := by
      unfold calculate_monthly_aggregates
      rw [List.map_map]
      rfl
    rw [h1, ← map_sum_runs DailyRow.post_day (monthRuns df), monthRuns_flatten]
  · have h1 : ((calculate_monthly_aggregates df).map MonthlyRow.num_comments).sum
        = ((monthRuns df).map (fun p => ((p.1 :: p.2).map DailyRow.num_comments).sum)).sum := by
      unfold calculate_monthly_aggregates
      rw [List.map_map]
      rfl
    rw [h1, ← map_sum_runs DailyRow.num_comments (monthRuns df), monthRuns_flatten]

/-- C7: the monthly aggregation reads only the `post_day` and `num_comments`
source columns, never `total_activities` — so running `calculate_daily_sums`
first changes nothing in its output. -/
theorem C7_monthly_ignores_totals (df : List DailyRow) :
    calculate_monthly_aggregates (calculate_daily_sums df)
      = calculate_monthly_aggregates df := by
  unfold calculate_monthly_aggregates calculate_daily_sums
  rw [monthRuns_map
      (fun r => { r with total_activities := some (r.post_day + r.num_comments) })
      (fun r => rfl),
    List.map_map]
  apply List.map_congr_left
  intro p _
  simp only [Function.comp_apply, List.map_cons, List.map_map, List.sum_cons]
  rfl

lemma dateLt_irrefl (a : Date) : ¬ dateLt a a := by
  unfold dateLt
  omega

lemma dateLt_trans {a b c : Date} (h1 : dateLt a b) (h2 : dateLt b c) : dateLt a c := by
  unfold dateLt at h1 h2 ⊢
  omega

lemma monthStart_lt_of_monthLt {a b : Date}
    (h : monthLt (monthKey a) (monthKey b)) : dateLt (monthStart a) (monthStart b) := by
  rcases h with h | ⟨h1, h2⟩
  · exact Or.inl h
  · exact Or.inr ⟨h1, Or.inl h2⟩

/-- The monthly rows of any daily frame of the program: strictly ascending
month labels. -/
lemma monthly_dates_chain (g : InstagramData) :
    List.Chain' dateLt
      ((calculate_monthly_aggregates (initialise_daily_data g)).map MonthlyRow.month_date) := by
  have hkeys : List.Chain' monthLe
      ((initialise_daily_data g).map (fun r => monthKey r.date)) :=
    rows_keys_chain g _ (dateList_keys_chain _ _)
  have hheads := monthRuns_heads_chain _ hkeys
  have hmap : (calculate_monthly_aggregates (initialise_daily_data g)).map MonthlyRow.month_date
      = (monthRuns (initialise_daily_data g)).map (fun p => monthStart p.1.date) := by
    unfold calculate_monthly_aggregates
    rw [List.map_map]
    rfl
  rw [hmap]
  rw [List.chain'_map] at hheads ⊢
  exact List.Chain'.imp (fun _ _ h => monthStart_lt_of_monthLt h) hheads

instance : IsTrans Date dateLt :=
  ⟨fun _ _ _ h1 h2 => dateLt_trans h1 h2⟩

instance : IsTrans MonthlyRow (fun a b => dateLt a.month_date b.month_date) :=
  ⟨fun _ _ _ h1 h2 => dateLt_trans h1 h2⟩

lemma pairwise_month_dates_unique {l : List MonthlyRow}
    (h : l.Pairwise (fun x y => dateLt x.month_date y.month_date)) :
    ∀ x ∈ l, ∀ y ∈ l, x.month_date = y.month_date → x = y := by
  induction l with
  | nil => simp
  | cons a l ih =>
      intro x hx y hy hxy
      have hrest := (List.pairwise_cons.mp h).2
      have hhead := (List.pairwise_cons.mp h).1
      rcases List.mem_cons.mp hx with rfl | hx' <;> rcases List.mem_cons.mp hy with rfl | hy'
      · rfl
      · exact absurd (hxy ▸ hhead y hy') (dateLt_irrefl _)
      · exact absurd (hxy ▸ hhead x hx') (dateLt_irrefl _)
      · exact ih hrest x hx' y hy' hxy

/-- C6: on the daily frame the program builds, the monthly aggregator emits
rows in strictly ascending `month_date` order, at most one row per
`month_date`; and a calendar month `(y, m)` gets a row — labelled with the
first day of that month — exactly when some daily row falls in that month. -/
theorem C6_monthly_bucket_shape (g : InstagramData) :
    List.Chain' dateLt
      ((calculate_monthly_aggregates (initialise_daily_data g)).map MonthlyRow.month_date)
    ∧ (∀ mr1 ∈ calculate_monthly_aggregates (initialise_daily_data g),
        ∀ mr2 ∈ calculate_monthly_aggregates (initialise_daily_data g),
          mr1.month_date = mr2.month_date → mr1 = mr2)
    ∧ (∀ mr ∈ calculate_monthly_aggregates (initialise_daily_data g),
        mr.month_date.day = 1 ∧ ∃ r ∈ initialise_daily_data g,
          r.date.year = mr.month_date.year ∧ r.date.month = mr.month_date.month)
    ∧ ∀ (y : Int) (m : Nat),
        ((∃ r ∈ initialise_daily_data g, r.date.year = y ∧ r.date.month = m) ↔
          (∃ mr ∈ calculate_monthly_aggregates (initialise_daily_data g),
            mr.month_date = ⟨y, m, 1⟩)) := by
  refine ⟨monthly_dates_chain g, ?_, ?_, ?_⟩
  · have hchain := monthly_dates_chain g
    rw [List.chain'_map] at hchain
    exact pairwise_month_dates_unique (List.chain'_iff_pairwise.mp hchain)
  · intro mr hmr
    unfold calculate_monthly_aggregates at hmr
    obtain ⟨p, hp, rfl⟩ := List.mem_map.mp hmr
    refine ⟨rfl, p.1, ?_, rfl, rfl⟩
    rw [← monthRuns_flatten (initialise_daily_data g)]
    exact List.mem_flatMap.mpr ⟨p, hp, by simp⟩
  · intro y m
    constructor
    · rintro ⟨r, hr, hy, hm⟩
      rw [← monthRuns_flatten (initialise_daily_data g)] at hr
      obtain ⟨p, hp, hrp⟩ := List.mem_flatMap.mp hr
      have hkey : monthKey r.date = monthKey p.1.date := by
        rcases List.mem_cons.mp hrp with rfl | hrp'
        · rfl
        · exact monthRuns_key _ p hp r hrp'
      refine ⟨⟨monthStart p.1.date,
        ((p.1 :: p.2).map DailyRow.post_day).sum,
        ((p.1 :: p.2).map DailyRow.num_comments).sum⟩, ?_, ?_⟩
      · unfold calculate_monthly_aggregates
        exact List.mem_map.mpr ⟨p, hp, rfl⟩
      · have h1 : p.1.date.year = y := by
          have := congrArg Prod.fst hkey
          simp [monthKey] at this
          omega
        have h2 : p.1.date.month = m := by
          have := congrArg Prod.snd hkey
          simp [monthKey] at this
          omega
        show monthStart p.1.date = _
        unfold monthStart
        rw [h1, h2]
    · rintro ⟨mr, hmr, hdate⟩
      unfold calculate_monthly_aggregates at hmr
      obtain ⟨p, hp, rfl⟩ := List.mem_map.mp hmr
      refine ⟨p.1, ?_, ?_, ?_⟩
      · rw [← monthRuns_flatten (initialise_daily_data g)]
        exact List.mem_flatMap.mpr ⟨p, hp, by simp⟩
      · have : monthStart p.1.date = Date.mk y m 1 := hdate
        exact congrArg Date.year this
      · have : monthStart p.1.date = Date.mk y m 1 := hdate
        exact congrArg Date.month this

/-! ### Comments and the period interval -/

lemma mem_period_iff (g : InstagramData) (hs : validDate g.periodStart)
    (he : validDate g.periodEnd) {c : Date} (hcv : validDate c) :
    c ∈ dateList g.periodStart (periodLength g) ↔
      (dateLe g.periodStart c ∧ dateLe c g.periodEnd) := by
  rw [mem_dateList_iff hs, dateLe_iff_toOrdinal_le hs hcv, dateLe_iff_toOrdinal_le hcv he]
  unfold periodLength
  constructor
  · rintro ⟨_, h1, h2⟩
    refine ⟨h1, ?_⟩
    omega
  · rintro ⟨h1, h2⟩
    refine ⟨hcv, h1, ?_⟩
    omega

lemma sum_single (a : Date) (x : Int) :
    ∀ ds : List Date, ds.Nodup →
      (ds.map (fun d => if a = d then x else 0)).sum = if a ∈ ds then x else 0 := by
  intro ds
  induction ds with
  | nil => simp
  | cons d ds ih =>
      intro hnd
      rw [List.map_cons, List.sum_cons, ih (List.nodup_cons.mp hnd).2]
      by_cases h : a = d
      · subst h
        have hnotin : a ∉ ds := (List.nodup_cons.mp hnd).1
        simp [hnotin]
      · simp [h, List.mem_cons]

lemma sum_map_add_split (f g : Date → Int) : ∀ l : List Date,
    (l.map (fun d => f d + g d)).sum = (l.map f).sum + (l.map g).sum := by
  intro l
  induction l with
  | nil => simp
  | cons d l ih =>
      simp only [List.map_cons, List.sum_cons, ih]
      ring

/-- Interchanging the per-date sums of matching comment counts into a single
filtered sum over the comments (each comment matches at most one date of a
duplicate-free date list). -/
lemma sum_comments_swap (ds : List Date) (hnd : ds.Nodup) :
    ∀ cs : List Comment,
      (ds.map (fun d => ((cs.filter (fun c => decide (c.date = d))).map Comment.count).sum)).sum
        = ((cs.filter (fun c => decide (c.date ∈ ds))).map Comment.count).sum := by
  intro cs
  induction cs with
  | nil => simp
  | cons c cs ih =>
      have hsplit : ∀ d : Date,
          (((c :: cs).filter (fun x => decide (x.date = d))).map Comment.count).sum
            = (if c.date = d then c.count else 0)
              + ((cs.filter (fun x => decide (x.date = d))).map Comment.count).sum := by
        intro d
        rw [List.filter_cons]
        by_cases h : c.date = d
        · simp [h]
        · simp [h]
      have hmap : (ds.map (fun d =>
            (((c :: cs).filter (fun x => decide (x.date = d))).map Comment.count).sum))
          = ds.map (fun d => (if c.date = d then c.count else 0)
              + ((cs.filter (fun x => decide (x.date = d))).map Comment.count).sum) :=
        List.map_congr_left (fun d _ => hsplit d)
      rw [hmap,
        sum_map_add_split (fun d => if c.date = d then c.count else 0)
          (fun d => ((cs.filter (fun x => decide (x.date = d))).map Comment.count).sum) ds,
        sum_single c.date c.count ds hnd, ih, List.filter_cons]
      by_cases hin : c.date ∈ ds
      · simp [hin]
      · simp [hin]

/-- C3: the comment counts are conserved — the `num_comments` column of the
daily frame sums to the total count of exactly the comments dated within
`[periodStart, periodEnd]` (each out-of-period comment contributes nothing),
and every row of the frame is dated within the period (no extra rows from
out-of-period comments). -/
theorem C3_comment_sum_conservation (g : InstagramData)
    (hs : validDate g.periodStart) (he : validDate g.periodEnd)
    (hc : ∀ c ∈ g.comments, validDate c.date) :
    ((initialise_daily_data g).map DailyRow.num_comments).sum
      = ((g.comments.filter
            (fun c => decide (dateLe g.periodStart c.date ∧ dateLe c.date g.periodEnd))).map
          Comment.count).sum
    ∧ ((initialise_daily_data g).all
        (fun r => decide (dateLe g.periodStart r.date ∧ dateLe r.date g.periodEnd))) = true := by
  constructor
  · unfold initialise_daily_data
    rw [map_sum_flatMap]
    have h1 : (dateList g.periodStart (periodLength g)).map
        (fun d => ((dailyRowsFor g d).map DailyRow.num_comments).sum)
        = (dateList g.periodStart (periodLength g)).map
          (fun d => ((g.comments.filter (fun c => decide (c.date = d))).map Comment.count).sum) :=
      List.map_congr_left (fun d _ => dailyRowsFor_num_comments_sum g d)
    rw [h1, sum_comments_swap _ (dateList_nodup hs _) g.comments]
    have h2 : g.comments.filter
        (fun c => decide (c.date ∈ dateList g.periodStart (periodLength g)))
        = g.comments.filter
          (fun c => decide (dateLe g.periodStart c.date ∧ dateLe c.date g.periodEnd)) := by
      apply List.filter_congr
      intro c hcmem
      rw [decide_eq_decide]
      exact mem_period_iff g hs he (hc c hcmem)
    rw [h2]
  · rw [List.all_eq_true]
    intro r hr
    rw [decide_eq_true_eq]
    unfold initialise_daily_data at hr
    obtain ⟨d, hd, hrd⟩ := List.mem_flatMap.mp hr
    have hdv : validDate d := dateList_valid hs d hd
    rw [dailyRowsFor_date g d r hrd]
    exact (mem_period_iff g hs he hdv).mp hd

/-- A three-day period with one in-period comment and one after the period. -/
def gC3 : InstagramData :=
  ⟨⟨2021, 3, 1⟩, ⟨2021, 3, 3⟩, 11,
   [⟨⟨2021, 3, 2⟩, "Justin Bieber", 5⟩, ⟨⟨2021, 5, 13⟩, "Justin Bieber", 3⟩]⟩

theorem C3_comment_sum_conservation_witness :
    (validDate gC3.periodStart ∧ validDate gC3.periodEnd ∧
      ∀ c ∈ gC3.comments, validDate c.date) ∧
    (((initialise_daily_data gC3).map DailyRow.num_comments).sum
      = ((gC3.comments.filter
            (fun c => decide (dateLe gC3.periodStart c.date ∧ dateLe c.date gC3.periodEnd))).map
          Comment.count).sum
    ∧ ((initialise_daily_data gC3).all
        (fun r => decide (dateLe gC3.periodStart r.date ∧ dateLe r.date gC3.periodEnd))) = true) :=
  ⟨⟨by decide, by decide, by decide⟩,
   C3_comment_sum_conservation gC3 (by decide) (by decide) (by decide)⟩

/-- C10: a posting day that a month cannot reach (its day count is below
`monthlyPostingDay`) simply never matches: every daily row of that month has
`post_day = 0`. The builder is a total function — it raises nothing. -/
theorem C10_unattainable_posting_day (g : InstagramData) (hs : validDate g.periodStart)
    (y : Int) (m : Nat) (hday : (daysInMonth y m : Int) < g.monthlyPostingDay) :
    ((initialise_daily_data g).filter
        (fun r => decide (r.date.year = y ∧ r.date.month = m))).all
      (fun r => r.post_day == 0) = true := by
  rw [List.all_eq_true]
  intro r hr
  rw [List.mem_filter] at hr
  obtain ⟨hrmem, hrpred⟩ := hr
  rw [decide_eq_true_eq] at hrpred
  obtain ⟨hy, hm⟩ := hrpred
  unfold initialise_daily_data at hrmem
  obtain ⟨d, hd, hrd⟩ := List.mem_flatMap.mp hrmem
  have hdv : validDate d := dateList_valid hs d hd
  have hdate := dailyRowsFor_date g d r hrd
  have hpost := dailyRowsFor_post_day g d r hrd
  rw [hdate] at hy hm
  have hbound : d.day ≤ daysInMonth y m := by
    have hv := hdv.2.2.2
    rw [hy, hm] at hv
    exact hv
  have hne : (d.day : Int) ≠ g.monthlyPostingDay := by
    have : (d.day : Int) ≤ (daysInMonth y m : Int) := by exact_mod_cast hbound
    omega
  rw [hpost, if_neg hne]
  rfl

/-- A period covering the end of February 2021 with posting day 31. -/
def gC10 : InstagramData := ⟨⟨2021, 2, 27⟩, ⟨2021, 3, 2⟩, 31, []⟩

theorem C10_unattainable_posting_day_witness :
    (validDate gC10.periodStart ∧ (daysInMonth 2021 2 : Int) < gC10.monthlyPostingDay) ∧
    ((initialise_daily_data gC10).filter
        (fun r => decide (r.date.year = 2021 ∧ r.date.month = 2))).all
      (fun r => r.post_day == 0) = true :=
  ⟨⟨by decide, by decide⟩,
   C10_unattainable_posting_day gC10 (by decide) 2021 2 (by decide)⟩

/-! ## The duplicated-row defect of the left join -/

/-- Input exhibiting the defect: two comments share the in-range date
2021-03-01 of a two-day period (the module's own `__main__` data likewise
carries two comments on 5/4/21). -/
def dupCommentData : InstagramData :=
  ⟨⟨2021, 3, 1⟩, ⟨2021, 3, 2⟩, 11,
   [⟨⟨2021, 3, 1⟩, "Lady Gaga", 5⟩, ⟨⟨2021, 3, 1⟩, "Snoop Dog", 2⟩]⟩

/-- C1 (code bug): the period spans `(periodEnd − periodStart).days + 1 = 2`
calendar days, yet the built frame has 3 rows, and its `date` column holds a
duplicate — the left join emits 2021-03-01 once per comment on it, breaking
the one-row-per-date shape. -/
theorem C1_duplicate_rows :
    Date.toOrdinal dupCommentData.periodEnd - Date.toOrdinal dupCommentData.periodStart + 1 = 2
    ∧ (initialise_daily_data dupCommentData).length = 3
    ∧ ¬ ((initialise_daily_data dupCommentData).map DailyRow.date).Nodup := by
  refine ⟨by decide, by decide, by decide⟩

/-- C2 (code bug): the two comments of 2021-03-01 (counts 5 and 2) are not
accumulated into one `num_comments = 7` row; the frame carries two separate
rows for that date with the individual counts, and no row of the frame holds
the summed value 7. -/
theorem C2_no_same_date_summation :
    (initialise_daily_data dupCommentData).map (fun r => (r.date.day, r.num_comments))
      = [(1, 5), (1, 2), (2, 0)]
    ∧ ((initialise_daily_data dupCommentData).all (fun r => !(r.num_comments == 7))) = true := by
  refine ⟨by decide, by decide⟩

/-! ## Date-string validation (`validate_dates`, `strptime "%d/%m/%y"`)

Python's `_strptime` compiles `"%d/%m/%y"` into the anchored regex
`(3[0-1]|[1-2]\d|0[1-9]|[1-9]| [1-9])/(1[0-2]|0[1-9]|[1-9])/(\d\d)` — note
the trailing ` [1-9]` alternative of `%d`, kept by CPython "to make %c from
ANSI C work", which admits a space-padded single-digit day such as
`" 5/4/21"` — and rejects any unconverted trailing input; a match is then passed to the `datetime`
constructor, whose `ValueError` on impossible dates (e.g. 30 February)
propagates to the validator like a format mismatch. Two-digit years expand by
the POSIX rule: `00..68 → 2000..2068`, `69..99 → 1969..1999`. The model works
on the character list of the string (ASCII digits; `re`'s `\d` would also
admit non-ASCII decimal digits, which this model ignores). -/

/-- Numeric value of a digit string (most significant first). -/
def digitsVal (f : List Char) : Nat :=
  f.foldl (fun a c => a * 10 + (c.toNat - 48)) 0

/-- An all-digit day or month field: one or two digits whose value lies in
`[lo, hi]`. The digit alternatives `3[0-1]|[1-2]\d|0[1-9]|[1-9]` of `%d` are
exactly the one- or two-digit strings with value in `[1, 31]`, and the full
`%m` regex `1[0-2]|0[1-9]|[1-9]` exactly those with value in `[1, 12]`;
`%d`'s extra space-padded alternative ` [1-9]` is handled in
`splitDayField`. -/
def fieldOk (f : List Char) (lo hi : Nat) : Bool :=
  f.all Char.isDigit && (f.length == 1 || f.length == 2)
    && decide (lo ≤ digitsVal f) && decide (digitsVal f ≤ hi)

/-- The two-digit-year expansion of `_strptime`:
`if year <= 68: year += 2000 else: year += 1900`. -/
def centuryExpand (yy : Nat) : Int :=
  if yy ≤ 68 then 2000 + (yy : Int) else 1900 + (yy : Int)

/-- The final `datetime(year, month, day)` construction: century expansion and
the day-of-month bound whose violation raises `ValueError`. -/
def mkDMY (d m yy : Nat) : Option Date :=
  if d ≤ daysInMonth (centuryExpand yy) m then some ⟨centuryExpand yy, m, d⟩
  else none

/-- One regex step: a maximal run of digits followed by the literal `/`. -/
def splitField (cs : List Char) : Option (List Char × List Char) :=
  match cs.dropWhile Char.isDigit with
  | [] => none
  | c :: rest => if c = '/' then some (cs.takeWhile Char.isDigit, rest) else none

/-- The character class `[1-9]`. -/
def isNonzeroDigit (c : Char) : Bool :=
  decide ('1' ≤ c) && decide (c ≤ '9')

/-- The `%d` step of the regex, alternatives
`3[0-1]|[1-2]\d|0[1-9]|[1-9]| [1-9]` followed by the literal `/`: either a
maximal one- or two-digit run with value in `[1, 31]`, or the trailing
ANSI-C alternative — a space and a single nonzero digit (only this
alternative can match when the input starts with a space, and after it the
`/` of the format must follow at once). Returns the day value (`int` ignores
the padding space) and the input after the slash. -/
def splitDayField (cs : List Char) : Option (Nat × List Char) :=
  match cs with
  | [] => none
  | a :: rest =>
    if a = ' ' then
      match rest with
      | c :: sl :: r2 =>
          if isNonzeroDigit c && decide (sl = '/') then some (c.toNat - 48, r2)
          else none
      | _ => none
    else
      match splitField (a :: rest) with
      | some (f, r) => if fieldOk f 1 31 then some (digitsVal f, r) else none
      | none => none

/-- `datetime.strptime(v, "%d/%m/%y")` as the `validate_dates` validators use
it: day field (with the space-padded alternative), `/`, month field, `/`,
exactly two digits of year with nothing after them, then the `datetime`
construction. -/
def strptime_dmy (s : String) : Option Date :=
  match splitDayField s.data with
  | none => none
  | some (d, r1) =>
    match splitField r1 with
    | none => none
    | some (f2, f3) =>
      if fieldOk f2 1 12 && (f3.all Char.isDigit && f3.length == 2) then
        mkDMY d (digitsVal f2) (digitsVal f3)
      else none

/-- The `validate_dates` field validator shared by `Comment.date`,
`InstagramData.periodStart` and `InstagramData.periodEnd`: any `strptime`
failure is re-raised as `ValueError(f"Invalid date format: {v}")`, which
pydantic surfaces as a `ValidationError` naming the field. -/
def validate_dates (v : String) : Except String Date :=
  match strptime_dmy v with
  | some dt => Except.ok dt
  | none => Except.error ("Invalid date format: " ++ v)

/-- Split a character list at every `/` (spec-side reading of the textual
pattern as slash-separated fields). -/
def splitSlash : List Char → List (List Char)
  | [] => [[]]
  | c :: cs =>
    if c = '/' then [] :: splitSlash cs
    else
      match splitSlash cs with
      | [] => [[c]]
      | f :: fs => (c :: f) :: fs

/-- A day field of the textual pattern: one or two digits with value in
`[1, 31]`, or the space-padded form — a space followed by one nonzero
digit. -/
def dayFieldOk (f : List Char) : Bool :=
  fieldOk f 1 31 ||
  (match f with
   | [a, c] => decide (a = ' ') && isNonzeroDigit c
   | _ => false)

/-- The numeric value of a day field (Python's `int` ignores the padding
space). -/
def dayFieldVal (f : List Char) : Nat :=
  match f with
  | [a, c] => if a = ' ' then c.toNat - 48 else digitsVal [a, c]
  | _ => digitsVal f

/-- Modelled from the spec: "Date fields accept only the literal textual
pattern day/month/2-digit-year" — three slash-separated fields: a day field
(one or two digits in `[1, 31]`, or space-padded per `%d`'s ` [1-9]`
alternative), a one- or two-digit month in `[1, 12]`, a year of exactly two
digits, naming a real calendar date under the two-digit-year expansion.
Stated independently of the parser so the two can be compared. -/
def dmy_pattern (s : String) : Option Date :=
  match splitSlash s.data with
  | [f1, f2, f3] =>
    if dayFieldOk f1 && fieldOk f2 1 12
        && (f3.all Char.isDigit && f3.length == 2) then
      mkDMY (dayFieldVal f1) (digitsVal f2) (digitsVal f3)
    else none
  | _ => none

/-! ### The parser accepts exactly the textual pattern -/

lemma slash_not_digit : Char.isDigit '/' = false := rfl

lemma takeWhile_digits_of_append (f rest : List Char) (hf : f.all Char.isDigit = true) :
    (f ++ '/' :: rest).takeWhile Char.isDigit = f
    ∧ (f ++ '/' :: rest).dropWhile Char.isDigit = '/' :: rest := by
  induction f with
  | nil =>
      constructor
      · rw [List.nil_append, List.takeWhile_cons, slash_not_digit]
        rfl
      · rw [List.nil_append, List.dropWhile_cons, slash_not_digit]
        rfl
  | cons c f ih =>
      rw [List.all_cons, Bool.and_eq_true] at hf
      obtain ⟨hc, hf'⟩ := hf
      have hih := ih hf'
      constructor
      · rw [List.cons_append, List.takeWhile_cons, hc]
        simp only [if_true, hih.1]
      · rw [List.cons_append, List.dropWhile_cons, hc]
        simp only [if_true, hih.2]

lemma no_slash_of_all_digits {f : List Char} (hf : f.all Char.isDigit = true) :
    '/' ∉ f := by
  intro hmem
  rw [List.all_eq_true] at hf
  have := hf '/' hmem
  rw [slash_not_digit] at this
  exact Bool.false_ne_true this

lemma splitField_iff {cs : List Char} {f rest : List Char} :
    splitField cs = some (f, rest) ↔
      (cs = f ++ '/' :: rest ∧ f.all Char.isDigit = true) := by
  constructor
  · intro h
    unfold splitField at h
    cases hdrop : cs.dropWhile Char.isDigit with
    | nil =>
        rw [hdrop] at h
        exact absurd h (by simp)
    | cons c rest' =>
        rw [hdrop] at h
        dsimp only at h
        by_cases hc : c = '/'
        · rw [if_pos hc] at h
          rw [Option.some.injEq, Prod.mk.injEq] at h
          obtain ⟨hf, hrest⟩ := h
          have hdig : (cs.takeWhile Char.isDigit).all Char.isDigit = true := by
            rw [List.all_eq_true]
            intro x hx
            exact List.mem_takeWhile_imp hx
          refine ⟨?_, hf ▸ hdig⟩
          calc cs = cs.takeWhile Char.isDigit ++ cs.dropWhile Char.isDigit :=
                (List.takeWhile_append_dropWhile Char.isDigit cs).symm
            _ = f ++ '/' :: rest := by rw [hdrop, hf, hc, hrest]
        · rw [if_neg hc] at h
          exact absurd h (by simp)
  · rintro ⟨rfl, hdig⟩
    have hsplit := takeWhile_digits_of_append f rest hdig
    unfold splitField
    rw [hsplit.2]
    dsimp only
    rw [if_pos rfl, hsplit.1]

lemma splitSlash_ne_nil : ∀ cs : List Char, splitSlash cs ≠ [] := by
  intro cs
  cases cs with
  | nil => simp [splitSlash]
  | cons c cs =>
      unfold splitSlash
      by_cases hc : c = '/'
      · rw [if_pos hc]
        simp
      · rw [if_neg hc]
        cases h : splitSlash cs <;> simp

lemma splitSlash_singleton {f : List Char} (hf : '/' ∉ f) : splitSlash f = [f] := by
  induction f with
  | nil => rfl
  | cons c f ih =>
      have hc : c ≠ '/' := fun h => hf (by rw [h]; exact List.mem_cons_self _ _)
      have hf' : '/' ∉ f := fun h => hf (List.mem_cons_of_mem _ h)
      unfold splitSlash
      rw [if_neg hc, ih hf']

lemma splitSlash_field_append {f : List Char} (rest : List Char) (hf : '/' ∉ f) :
    splitSlash (f ++ '/' :: rest) = f :: splitSlash rest := by
  induction f with
  | nil =>
      rw [List.nil_append]
      simp only [splitSlash, if_true]
  | cons c f ih =>
      have hc : c ≠ '/' := fun h => hf (by rw [h]; exact List.mem_cons_self _ _)
      have hf' : '/' ∉ f := fun h => hf (List.mem_cons_of_mem _ h)
      rw [List.cons_append]
      simp only [splitSlash]
      rw [if_neg hc, ih hf']

/-- Rebuild a character list from slash-separated fields. -/
def joinSlash : List (List Char) → List Char
  | [] => []
  | [f] => f
  | f :: fs => f ++ '/' :: joinSlash fs

lemma joinSlash_splitSlash : ∀ cs : List Char, joinSlash (splitSlash cs) = cs := by
  intro cs
  induction cs with
  | nil => rfl
  | cons c cs ih =>
      by_cases hc : c = '/'
      · subst hc
        simp only [splitSlash, if_true]
        obtain ⟨f, fs, hffs⟩ := List.exists_cons_of_ne_nil (splitSlash_ne_nil cs)
        rw [hffs]
        rw [hffs] at ih
        show ([] : List Char) ++ '/' :: joinSlash (f :: fs) = '/' :: cs
        rw [List.nil_append, ih]
      · simp only [splitSlash]
        rw [if_neg hc]
        cases hsp : splitSlash cs with
        | nil => exact absurd hsp (splitSlash_ne_nil cs)
        | cons f fs =>
            rw [hsp] at ih
            cases fs with
            | nil =>
                show c :: f = c :: cs
                rw [show joinSlash [f] = f from rfl] at ih
                rw [ih]
            | cons f2 fs2 =>
                show (c :: f) ++ '/' :: joinSlash (f2 :: fs2) = c :: cs
                rw [show joinSlash (f :: f2 :: fs2) = f ++ '/' :: joinSlash (f2 :: fs2)
                  from rfl] at ih
                rw [List.cons_append, ih]

lemma fieldOk_all_digits {f : List Char} {lo hi : Nat} (h : fieldOk f lo hi = true) :
    f.all Char.isDigit = true := by
  unfold fieldOk at h
  simp only [Bool.and_eq_true] at h
  exact h.1.1.1

lemma isDigit_ne_space {c : Char} (h : c.isDigit = true) : c ≠ ' ' := by
  intro heq
  rw [heq] at h
  exact absurd h (by decide)

lemma nonzeroDigit_ne_slash {c : Char} (h : isNonzeroDigit c = true) : c ≠ '/' := by
  intro heq
  rw [heq] at h
  exact absurd h (by decide)

/-- On an all-digit field the padding-aware value is the plain digit value. -/
lemma dayFieldVal_all_digits {f : List Char} (hf : f.all Char.isDigit = true) :
    dayFieldVal f = digitsVal f := by
  cases f with
  | nil => rfl
  | cons a t =>
      cases t with
      | nil => rfl
      | cons c t2 =>
          cases t2 with
          | cons x t3 => rfl
          | nil =>
              have ha : a.isDigit = true := by
                rw [List.all_eq_true] at hf
                exact hf a (by simp)
              show (if a = ' ' then c.toNat - 48 else digitsVal [a, c]) = digitsVal [a, c]
              rw [if_neg (isDigit_ne_space ha)]

/-- A day field is an in-range digit run or the two-character space form. -/
lemma dayFieldOk_parts {f : List Char} (h : dayFieldOk f = true) :
    fieldOk f 1 31 = true
      ∨ ∃ a c, f = [a, c] ∧ a = ' ' ∧ isNonzeroDigit c = true := by
  unfold dayFieldOk at h
  rw [Bool.or_eq_true] at h
  rcases h with h | h
  · exact Or.inl h
  · right
    cases f with
    | nil => simp at h
    | cons a t =>
        cases t with
        | nil => simp at h
        | cons c t2 =>
            cases t2 with
            | cons x t3 => simp at h
            | nil =>
                rw [Bool.and_eq_true, decide_eq_true_eq] at h
                exact ⟨a, c, rfl, h.1, h.2⟩

lemma dayFieldOk_no_slash {f : List Char} (h : dayFieldOk f = true) : '/' ∉ f := by
  rcases dayFieldOk_parts h with h | ⟨a, c, rfl, ha, hc⟩
  · exact no_slash_of_all_digits (fieldOk_all_digits h)
  · intro hmem
    rcases List.mem_cons.mp hmem with heq | hmem2
    · rw [ha] at heq
      exact absurd heq (by decide)
    · rcases List.mem_cons.mp hmem2 with heq | hmem3
      · exact nonzeroDigit_ne_slash hc heq.symm
      · simp at hmem3

/-- The `%d` step succeeds exactly on a day field followed by a slash. -/
lemma splitDayField_iff {cs : List Char} {d : Nat} {r : List Char} :
    splitDayField cs = some (d, r) ↔
      ∃ f, cs = f ++ '/' :: r ∧ dayFieldOk f = true ∧ dayFieldVal f = d := by
  constructor
  · intro h
    unfold splitDayField at h
    cases cs with
    | nil => exact Option.noConfusion h
    | cons a rest =>
        dsimp only at h
        by_cases ha : a = ' '
        · rw [if_pos ha] at h
          cases rest with
          | nil => exact Option.noConfusion h
          | cons c rest2 =>
              cases rest2 with
              | nil => exact Option.noConfusion h
              | cons sl r2 =>
                  dsimp only at h
                  by_cases hcs : (isNonzeroDigit c && decide (sl = '/')) = true
                  · rw [if_pos hcs] at h
                    rw [Option.some.injEq, Prod.mk.injEq] at h
                    obtain ⟨hd, hr⟩ := h
                    rw [Bool.and_eq_true, decide_eq_true_eq] at hcs
                    refine ⟨[a, c], ?_, ?_, ?_⟩
                    · rw [hcs.2, hr]
                      rfl
                    · unfold dayFieldOk
                      rw [Bool.or_eq_true]
                      right
                      dsimp only
                      rw [Bool.and_eq_true, decide_eq_true_eq]
                      exact ⟨ha, hcs.1⟩
                    · show (if a = ' ' then c.toNat - 48 else digitsVal [a, c]) = d
                      rw [if_pos ha, hd]
                  · rw [if_neg hcs] at h
                    exact Option.noConfusion h
        · rw [if_neg ha] at h
          cases hsf : splitField (a :: rest) with
          | none =>
              rw [hsf] at h
              exact Option.noConfusion h
          | some p =>
              obtain ⟨f, r0⟩ := p
              rw [hsf] at h
              dsimp only at h
              by_cases hok : fieldOk f 1 31 = true
              · rw [if_pos hok] at h
                rw [Option.some.injEq, Prod.mk.injEq] at h
                obtain ⟨hd, hr⟩ := h
                obtain ⟨hshape, hdig⟩ := splitField_iff.mp hsf
                refine ⟨f, ?_, ?_, ?_⟩
                · rw [← hr]
                  exact hshape
                · unfold dayFieldOk
                  rw [Bool.or_eq_true]
                  exact Or.inl hok
                · rw [dayFieldVal_all_digits hdig, hd]
              · rw [if_neg hok] at h
                exact Option.noConfusion h
  · rintro ⟨f, rfl, hok, hval⟩
    rcases dayFieldOk_parts hok with hfl | ⟨a, c, rfl, ha, hc⟩
    · have hdig := fieldOk_all_digits hfl
      cases f with
      | nil => exact absurd hfl (by decide)
      | cons a f0 =>
          have ha : a.isDigit = true := by
            rw [List.all_eq_true] at hdig
            exact hdig a (by simp)
          show splitDayField ((a :: f0) ++ '/' :: r) = some (d, r)
          rw [List.cons_append]
          unfold splitDayField
          dsimp only
          rw [if_neg (isDigit_ne_space ha)]
          have hsf : splitField (a :: (f0 ++ '/' :: r)) = some (a :: f0, r) := by
            rw [← List.cons_append]
            exact splitField_iff.mpr ⟨rfl, hdig⟩
          rw [hsf]
          dsimp only
          rw [if_pos hfl]
          have hdv : digitsVal (a :: f0) = d := by
            rw [← dayFieldVal_all_digits hdig]
            exact hval
          rw [hdv]
    · subst ha
      show splitDayField (' ' :: c :: '/' :: r) = some (d, r)
      unfold splitDayField
      dsimp only
      rw [if_pos (rfl : (' ' : Char) = ' ')]
      rw [if_pos (by rw [Bool.and_eq_true, decide_eq_true_eq]; exact ⟨hc, rfl⟩)]
      have hcd : c.toNat - 48 = d := by
        rw [← hval]
        show c.toNat - 48 = (if (' ' : Char) = ' ' then c.toNat - 48 else digitsVal [' ', c])
        rw [if_pos rfl]
      rw [hcd]

/-- The sequential `strptime` regex succeeds exactly on the slash-decomposed
shape: a day field (digit run in range, or space-padded), then in-range digit
month and two-digit year fields. -/
lemma strptime_some_iff {s : String} {dt : Date} :
    strptime_dmy s = some dt ↔
      ∃ f1 f2 f3 : List Char,
        s.data = f1 ++ ('/' :: (f2 ++ '/' :: f3))
        ∧ dayFieldOk f1 = true
        ∧ (fieldOk f2 1 12 && (f3.all Char.isDigit && f3.length == 2)) = true
        ∧ mkDMY (dayFieldVal f1) (digitsVal f2) (digitsVal f3) = some dt := by
  constructor
  · intro h
    unfold strptime_dmy at h
    cases h1 : splitDayField s.data with
    | none =>
        rw [h1] at h
        exact Option.noConfusion h
    | some p1 =>
        obtain ⟨d, r1⟩ := p1
        rw [h1] at h
        dsimp only at h
        cases h2 : splitField r1 with
        | none =>
            rw [h2] at h
            exact Option.noConfusion h
        | some p2 =>
            obtain ⟨f2, f3⟩ := p2
            rw [h2] at h
            dsimp only at h
            by_cases hch : (fieldOk f2 1 12
                && (f3.all Char.isDigit && f3.length == 2)) = true
            · rw [if_pos hch] at h
              obtain ⟨f1, hs1, hok1, hval1⟩ := splitDayField_iff.mp h1
              obtain ⟨hs2, _⟩ := splitField_iff.mp h2
              refine ⟨f1, f2, f3, by rw [hs1, hs2], hok1, hch, ?_⟩
              rw [hval1]
              exact h
            · rw [if_neg hch] at h
              exact Option.noConfusion h
  · rintro ⟨f1, f2, f3, hshape, hok1, hch, hmk⟩
    have hparts := hch
    simp only [Bool.and_eq_true] at hparts
    have hd2 : f2.all Char.isDigit = true := fieldOk_all_digits hparts.1
    have hsd : splitDayField s.data = some (dayFieldVal f1, f2 ++ '/' :: f3) :=
      splitDayField_iff.mpr ⟨f1, hshape, hok1, rfl⟩
    have hsf2 : splitField (f2 ++ '/' :: f3) = some (f2, f3) :=
      splitField_iff.mpr ⟨rfl, hd2⟩
    unfold strptime_dmy
    rw [hsd]
    dsimp only
    rw [hsf2]
    dsimp only
    rw [if_pos hch]
    exact hmk

/-- The spec-side textual pattern succeeds on exactly the same shape. -/
lemma dmy_pattern_some_iff {s : String} {dt : Date} :
    dmy_pattern s = some dt ↔
      ∃ f1 f2 f3 : List Char,
        s.data = f1 ++ ('/' :: (f2 ++ '/' :: f3))
        ∧ dayFieldOk f1 = true
        ∧ (fieldOk f2 1 12 && (f3.all Char.isDigit && f3.length == 2)) = true
        ∧ mkDMY (dayFieldVal f1) (digitsVal f2) (digitsVal f3) = some dt := by
  constructor
  · intro h
    unfold dmy_pattern at h
    cases hsp : splitSlash s.data with
    | nil => rw [hsp] at h; exact Option.noConfusion h
    | cons f1 t1 =>
        cases t1 with
        | nil => rw [hsp] at h; exact Option.noConfusion h
        | cons f2 t2 =>
            cases t2 with
            | nil => rw [hsp] at h; exact Option.noConfusion h
            | cons f3 t3 =>
                cases t3 with
                | cons f4 t4 => rw [hsp] at h; exact Option.noConfusion h
                | nil =>
                    rw [hsp] at h
                    dsimp only at h
                    by_cases hch : (dayFieldOk f1 && fieldOk f2 1 12
                        && (f3.all Char.isDigit && f3.length == 2)) = true
                    · rw [if_pos hch] at h
                      have hparts := hch
                      rw [Bool.and_eq_true, Bool.and_eq_true] at hparts
                      refine ⟨f1, f2, f3, ?_, hparts.1.1, ?_, h⟩
                      · have hj := joinSlash_splitSlash s.data
                        rw [hsp] at hj
                        rw [show joinSlash [f1, f2, f3]
                            = f1 ++ ('/' :: (f2 ++ '/' :: f3)) from rfl] at hj
                        exact hj.symm
                      · rw [Bool.and_eq_true]
                        exact ⟨hparts.1.2, hparts.2⟩
                    · rw [if_neg hch] at h
                      exact Option.noConfusion h
  · rintro ⟨f1, f2, f3, hshape, hok1, hch, hmk⟩
    have hparts := hch
    rw [Bool.and_eq_true] at hparts
    have hd2 : f2.all Char.isDigit = true := fieldOk_all_digits hparts.1
    have hd3 : f3.all Char.isDigit = true := by
      have h3 := hparts.2
      rw [Bool.and_eq_true] at h3
      exact h3.1
    have hsp : splitSlash s.data = [f1, f2, f3] := by
      rw [hshape, splitSlash_field_append _ (dayFieldOk_no_slash hok1),
        splitSlash_field_append _ (no_slash_of_all_digits hd2),
        splitSlash_singleton (no_slash_of_all_digits hd3)]
    unfold dmy_pattern
    rw [hsp]
    dsimp only
    rw [if_pos (by
      rw [Bool.and_eq_true, Bool.and_eq_true]
      exact ⟨⟨hok1, hparts.1⟩, hparts.2⟩)]
    exact hmk

lemma centuryExpand_self (yy : Nat) (h : yy ≤ 99) :
    centuryExpand yy
      = (if centuryExpand yy % 100 ≤ 68 then 2000 + centuryExpand yy % 100
         else 1900 + centuryExpand yy % 100) := by
  unfold centuryExpand
  split <;> split <;> omega

lemma digit_toNat_le {c : Char} (h : c.isDigit = true) : c.toNat - 48 ≤ 9 := by
  unfold Char.isDigit at h
  rw [Bool.and_eq_true] at h
  have h2 : c.val ≤ 57 := of_decide_eq_true h.2
  have h3 : c.val.toNat ≤ 57 := UInt32.toNat_le_of_le (by decide) h2
  show c.val.toNat - 48 ≤ 9
  omega

/-- Every accepted day field has value at least 1 (the digit alternatives by
`fieldOk`'s lower bound, the space form because its digit is nonzero). -/
lemma dayFieldVal_pos {f : List Char} (h : dayFieldOk f = true) :
    1 ≤ dayFieldVal f := by
  rcases dayFieldOk_parts h with hfl | ⟨a, c, rfl, ha, hc⟩
  · rw [dayFieldVal_all_digits (fieldOk_all_digits hfl)]
    unfold fieldOk at hfl
    simp only [Bool.and_eq_true, decide_eq_true_eq] at hfl
    exact hfl.1.2
  · subst ha
    show 1 ≤ (if (' ' : Char) = ' ' then c.toNat - 48 else digitsVal [' ', c])
    rw [if_pos rfl]
    unfold isNonzeroDigit at hc
    rw [Bool.and_eq_true] at hc
    have h1 : ('1' : Char) ≤ c := of_decide_eq_true hc.1
    have h49 : 49 ≤ c.val.toNat := UInt32.le_toNat_of_le (by decide) h1
    show 1 ≤ c.val.toNat - 48
    omega

lemma digitsVal_two_le {f : List Char} (hdig : f.all Char.isDigit = true)
    (hlen : f.length = 2) : digitsVal f ≤ 99 := by
  cases f with
  | nil => simp at hlen
  | cons a t =>
      cases t with
      | nil => simp at hlen
      | cons b t2 =>
          cases t2 with
          | cons x t3 => simp at hlen
          | nil =>
              rw [List.all_eq_true] at hdig
              have ha := digit_toNat_le (hdig a (by simp))
              have hb := digit_toNat_le (hdig b (by simp))
              show (0 * 10 + (a.toNat - 48)) * 10 + (b.toNat - 48) ≤ 99
              omega

/-- What holds of every successfully parsed date: a real calendar date whose
year lies in `1969..2068` and is determined from its low two digits by the
POSIX century rule. -/
lemma strptime_success_facts {s : String} {dt : Date}
    (h : strptime_dmy s = some dt) :
    validDate dt ∧ 1969 ≤ dt.year ∧ dt.year ≤ 2068 ∧
      dt.year = (if dt.year % 100 ≤ 68 then 2000 + dt.year % 100
                 else 1900 + dt.year % 100) := by
  obtain ⟨f1, f2, f3, _, hok1, hch, hmk⟩ := strptime_some_iff.mp h
  have hparts := hch
  simp only [Bool.and_eq_true] at hparts
  obtain ⟨hok2, hd3, hlen3⟩ := hparts
  unfold fieldOk at hok2
  simp only [Bool.and_eq_true, decide_eq_true_eq, beq_iff_eq] at hok2 hlen3
  obtain ⟨⟨⟨_, _⟩, hlo2⟩, hhi2⟩ := hok2
  have hlo1 : 1 ≤ dayFieldVal f1 := dayFieldVal_pos hok1
  have hy99 : digitsVal f3 ≤ 99 := digitsVal_two_le hd3 hlen3
  unfold mkDMY at hmk
  by_cases hdd : dayFieldVal f1 ≤ daysInMonth (centuryExpand (digitsVal f3)) (digitsVal f2)
  · rw [if_pos hdd, Option.some.injEq] at hmk
    subst hmk
    refine ⟨⟨hlo2, hhi2, hlo1, hdd⟩, ?_, ?_, ?_⟩
    · show 1969 ≤ centuryExpand (digitsVal f3)
      unfold centuryExpand
      split <;> omega
    · show centuryExpand (digitsVal f3) ≤ 2068
      unfold centuryExpand
      split <;> omega
    · show centuryExpand (digitsVal f3)
          = (if centuryExpand (digitsVal f3) % 100 ≤ 68
             then 2000 + centuryExpand (digitsVal f3) % 100
             else 1900 + centuryExpand (digitsVal f3) % 100)
      exact centuryExpand_self _ hy99
  · rw [if_neg hdd] at hmk
    exact Option.noConfusion hmk

/-- C8 (amended): date-field validation succeeds exactly on the strings of
the day/month/2-digit-year pattern that name a real calendar date — where
the day field is one or two digits in `[1, 31]` or, by `%d`'s ANSI-C
alternative, a space followed by a single nonzero digit — reading two-digit
years `00..68` as `20xx` but `69..99` as `19xx` (POSIX rule), not always
`20xx` — and any other string fails with an error carrying the raw value
(the surrounding validation framework attaches the field name). -/
theorem C8_date_validation (s : String) (dt : Date) :
    (strptime_dmy s = some dt ↔ dmy_pattern s = some dt)
    ∧ (strptime_dmy s = some dt →
        (validate_dates s = Except.ok dt ∧ validDate dt ∧
         1969 ≤ dt.year ∧ dt.year ≤ 2068 ∧
         dt.year = (if dt.year % 100 ≤ 68 then 2000 + dt.year % 100
                    else 1900 + dt.year % 100)))
    ∧ (strptime_dmy s = none →
        validate_dates s = Except.error ("Invalid date format: " ++ s)) := by
  refine ⟨strptime_some_iff.trans dmy_pattern_some_iff.symm, ?_, ?_⟩
  · intro h
    have hf := strptime_success_facts h
    refine ⟨?_, hf.1, hf.2.1, hf.2.2.1, hf.2.2.2⟩
    unfold validate_dates
    rw [h]
  · intro h
    unfold validate_dates
    rw [h]

theorem C8_date_validation_witness :
    ((validate_dates "5/4/21" = Except.ok ⟨2021, 4, 5⟩ ∧ validDate (⟨2021, 4, 5⟩ : Date) ∧
      1969 ≤ (⟨2021, 4, 5⟩ : Date).year ∧ (⟨2021, 4, 5⟩ : Date).year ≤ 2068 ∧
      (⟨2021, 4, 5⟩ : Date).year
        = (if (⟨2021, 4, 5⟩ : Date).year % 100 ≤ 68
           then 2000 + (⟨2021, 4, 5⟩ : Date).year % 100
           else 1900 + (⟨2021, 4, 5⟩ : Date).year % 100)))
    ∧ validate_dates " 5/4/21" = Except.ok ⟨2021, 4, 5⟩
    ∧ validate_dates "2021-03-11" = Except.error ("Invalid date format: " ++ "2021-03-11") :=
  ⟨(C8_date_validation "5/4/21" ⟨2021, 4, 5⟩).2.1 (by rfl),
   ((C8_date_validation " 5/4/21" ⟨2021, 4, 5⟩).2.1 (by rfl)).1,
   (C8_date_validation "2021-03-11" ⟨1, 1, 1⟩).2.2 (by rfl)⟩

/-- C8 counterexample: "15/02/99" is accepted, but its two-digit year `99`
expands to 1999 — not to a `20xx` year as the claim's century rule demands. -/
theorem C8_century_rule_counterexample :
    validate_dates "15/02/99" = Except.ok ⟨1999, 2, 15⟩ ∧ ¬ (2000 ≤ (1999 : Int)) := by
  constructor
  · rfl
  · decide

/-! ## Comment shape normalization (`InstagramData.convert_comments`)

`convert_comments` runs `mode="before"`: if the raw `comments` value is a
list *all* of whose elements are lists, each element is rewritten to
`{"date": item[0], "user": item[1], "count": item[2]}`; otherwise the value
passes through unchanged and pydantic then validates each element as a
`Comment` (rejecting anything that is not a dict/`Comment`). -/

inductive RawVal
  | str (s : String)
  | int (n : Int)
deriving DecidableEq, Repr

/-- A raw element of the `comments` array: a JSON array (Python list) of
values, or an object carrying optional `date`, `user`, `count` fields. -/
inductive RawComment
  | arr (items : List RawVal)
  | obj (date : Option RawVal) (user : Option RawVal) (count : Option RawVal)
deriving DecidableEq, Repr

/-- Outcome of a step of the validation pipeline: a value, a
`ValueError`-backed validation failure (pydantic collects these into its
`ValidationError`), or a non-`ValueError` exception that escapes validation
(`IndexError`, `TypeError`). -/
inductive PyResult (α : Type)
  | ok (a : α)
  | vErr (msg : String)
  | exc (msg : String)
deriving DecidableEq, Repr

/-- `isinstance(i, list)`. -/
def isArr : RawComment → Bool
  | .arr _ => true
  | .obj _ _ _ => false

def itemsOf : RawComment → List RawVal
  | .arr items => items
  | .obj _ _ _ => []

/-- `{"date": item[0], "user": item[1], "count": item[2]}` for one list item:
the first three entries read positionally (extra entries are ignored);
`item[k]` raises `IndexError` when the list is shorter. -/
def tripleToObj : List RawVal → PyResult RawComment
  | a :: b :: c :: _ => .ok (.obj (some a) (some b) (some c))
  | _ => .exc "IndexError: list index out of range"

/-- The conversion list comprehension: elements in order, the first
exception aborting the comprehension. -/
def mapConvert : List RawComment → PyResult (List RawComment)
  | [] => .ok []
  | x :: xs =>
    match tripleToObj (itemsOf x) with
    | .ok y =>
      match mapConvert xs with
      | .ok ys => .ok (y :: ys)
      | .vErr m => .vErr m
      | .exc m => .exc m
    | .vErr m => .vErr m
    | .exc m => .exc m

/-- `convert_comments`: convert every element when all elements are lists,
else pass the value through. -/
def convert_comments (v : List RawComment) : PyResult (List RawComment) :=
  if v.all isArr then mapConvert v else .ok v

/-- The `Comment.date` field (`mode="before"`, so the raw value reaches
`strptime` directly): parse failures raise `ValueError`; a non-string makes
`strptime` raise `TypeError`, which escapes validation; a missing field is a
`Field required` failure. -/
def validate_date_field : Option RawVal → PyResult Date
  | some (.str s) =>
    match strptime_dmy s with
    | some dt => .ok dt
    | none => .vErr ("Invalid date format: " ++ s)
  | some (.int _) => .exc "TypeError: strptime() argument 1 must be str"
  | none => .vErr "Field required"

/-- `user : str` — pydantic does not coerce numbers to strings. -/
def validate_user_field : Option RawVal → PyResult String
  | some (.str u) => .ok u
  | some (.int _) => .vErr "Input should be a valid string"
  | none => .vErr "Field required"

/-- `count : int` (pydantic's lax coercion of integer-looking strings is out
of scope of the claims; such inputs are modelled as plain invalid input). -/
def validate_count_field : Option RawVal → PyResult Int
  | some (.int n) => .ok n
  | some (.str _) => .vErr "Input should be a valid integer"
  | none => .vErr "Field required"

/-- Validate one element into a `Comment`: a list element (after
pass-through) is not a dict — a validation failure; an object has its fields
validated in declaration order, exceptions propagating immediately. -/
def validateComment : RawComment → PyResult Comment
  | .arr _ => .vErr "Input should be a valid dictionary or instance of Comment"
  | .obj d u c =>
    match validate_date_field d, validate_user_field u, validate_count_field c with
    | .exc m, _, _ => .exc m
    | .vErr m, _, _ => .vErr m
    | .ok _, .exc m, _ => .exc m
    | .ok _, .vErr m, _ => .vErr m
    | .ok _, .ok _, .exc m => .exc m
    | .ok _, .ok _, .vErr m => .vErr m
    | .ok dt, .ok us, .ok cn => .ok ⟨dt, us, cn⟩

/-- Validate the element list: pydantic records a `ValueError` and keeps
validating later elements (to collect all errors), so a later exception
still escapes; any recorded failure makes the whole validation fail. -/
def mapValidate : List RawComment → PyResult (List Comment)
  | [] => .ok []
  | x :: xs =>
    match validateComment x with
    | .exc m => .exc m
    | .vErr m =>
      match mapValidate xs with
      | .exc m2 => .exc m2
      | _ => .vErr m
    | .ok b =>
      match mapValidate xs with
      | .ok bs => .ok (b :: bs)
      | .vErr m => .vErr m
      | .exc m => .exc m

/-- The whole `comments` validation: the `mode="before"` conversion, then
per-element validation of the converted list. -/
def validate_comments (v : List RawComment) : PyResult (List Comment) :=
  match convert_comments v with
  | .ok l => mapValidate l
  | .vErr m => .vErr m
  | .exc m => .exc m

/-! ### Shape-validation lemmas -/

lemma mapConvert_triples (l : List (RawVal × RawVal × RawVal)) :
    mapConvert (l.map (fun t => RawComment.arr [t.1, t.2.1, t.2.2]))
      = PyResult.ok (l.map (fun t => RawComment.obj (some t.1) (some t.2.1) (some t.2.2))) := by
  induction l with
  | nil => rfl
  | cons t l ih =>
      rw [List.map_cons]
      unfold mapConvert
      rw [show tripleToObj (itemsOf (RawComment.arr [t.1, t.2.1, t.2.2]))
          = PyResult.ok (RawComment.obj (some t.1) (some t.2.1) (some t.2.2)) from rfl, ih]
      rfl

lemma convert_objs (l : List (RawVal × RawVal × RawVal)) :
    convert_comments (l.map (fun t => RawComment.obj (some t.1) (some t.2.1) (some t.2.2)))
      = PyResult.ok (l.map (fun t => RawComment.obj (some t.1) (some t.2.1) (some t.2.2))) := by
  cases l with
  | nil => rfl
  | cons t l =>
      have hneg : ¬ ((RawComment.obj (some t.1) (some t.2.1) (some t.2.2) ::
          List.map (fun t => RawComment.obj (some t.1) (some t.2.1) (some t.2.2)) l).all isArr
            = true) := by
        simp [isArr]
      rw [List.map_cons]
      unfold convert_comments
      rw [if_neg hneg]

lemma tripleToObj_short {items : List RawVal} (h : items.length < 3) :
    tripleToObj items = PyResult.exc "IndexError: list index out of range" := by
  cases items with
  | nil => rfl
  | cons a t =>
      cases t with
      | nil => rfl
      | cons b t2 =>
          cases t2 with
          | nil => rfl
          | cons c t3 =>
              simp only [List.length_cons] at h
              omega

lemma tripleToObj_not_vErr (items : List RawVal) (m : String) :
    tripleToObj items ≠ PyResult.vErr m := by
  cases items with
  | nil => simp [tripleToObj]
  | cons a t =>
      cases t with
      | nil => simp [tripleToObj]
      | cons b t2 =>
          cases t2 with
          | nil => simp [tripleToObj]
          | cons c t3 => simp [tripleToObj]

lemma tripleToObj_exc {items : List RawVal} {m : String}
    (h : tripleToObj items = PyResult.exc m) :
    m = "IndexError: list index out of range" := by
  cases items with
  | nil => cases h; rfl
  | cons a t =>
      cases t with
      | nil => cases h; rfl
      | cons b t2 =>
          cases t2 with
          | nil => cases h; rfl
          | cons c t3 => exact PyResult.noConfusion h

lemma mapConvert_short : ∀ (v : List RawComment),
    (∃ items, RawComment.arr items ∈ v ∧ items.length < 3) →
    mapConvert v = PyResult.exc "IndexError: list index out of range" := by
  intro v
  induction v with
  | nil =>
      rintro ⟨items, hmem, _⟩
      simp at hmem
  | cons x xs ih =>
      rintro ⟨items, hmem, hlen⟩
      rcases List.mem_cons.mp hmem with heq | hmem'
      · subst heq
        unfold mapConvert
        rw [show itemsOf (RawComment.arr items) = items from rfl, tripleToObj_short hlen]
      · cases htt : tripleToObj (itemsOf x) with
        | ok y =>
            unfold mapConvert
            rw [htt, ih ⟨items, hmem', hlen⟩]
        | vErr m => exact absurd htt (tripleToObj_not_vErr _ _)
        | exc m =>
            unfold mapConvert
            rw [htt, tripleToObj_exc htt]

lemma mapValidate_arr_not_ok : ∀ (v : List RawComment),
    (∃ e ∈ v, isArr e = true) → ∀ l, mapValidate v ≠ PyResult.ok l := by
  intro v
  induction v with
  | nil =>
      rintro ⟨e, he, _⟩
      simp at he
  | cons x xs ih =>
      rintro ⟨e, he, harr⟩ l h
      rcases List.mem_cons.mp he with rfl | he'
      · cases e with
        | obj d u c => simp [isArr] at harr
        | arr items =>
            unfold mapValidate at h
            rw [show validateComment (RawComment.arr items)
                = PyResult.vErr "Input should be a valid dictionary or instance of Comment"
                from rfl] at h
            dsimp only at h
            cases hxs : mapValidate xs <;> rw [hxs] at h <;>
              exact PyResult.noConfusion h
      · unfold mapValidate at h
        cases hx : validateComment x <;> rw [hx] at h <;> dsimp only at h
        · cases hxs : mapValidate xs <;> rw [hxs] at h <;> dsimp only at h
          · rw [PyResult.ok.injEq] at h
            exact ih ⟨e, he', harr⟩ _ hxs
          · exact PyResult.noConfusion h
          · exact PyResult.noConfusion h
        · cases hxs : mapValidate xs <;> rw [hxs] at h <;>
            exact PyResult.noConfusion h
        · exact PyResult.noConfusion h

/-- A well-formed object element followed by a well-formed triple element. -/
def mixedComments : List RawComment :=
  [RawComment.obj (some (.str "2/3/21")) (some (.str "Justin Bieber")) (some (.int 5)),
   RawComment.arr [.str "5/4/21", .str "Lady Gaga", .int 6]]

/-- C9 counterexample: each element of the mixed array is individually a
valid object or a valid `[date, author, count]` triple, yet the whole array
fails validation — the conversion step fires only when *all* elements are
lists, so the mixture passes through and the triple is rejected as not a
dictionary. -/
theorem C9_mixed_array_counterexample :
    validate_comments mixedComments
      = PyResult.vErr "Input should be a valid dictionary or instance of Comment"
    ∧ validate_comments [RawComment.obj (some (.str "2/3/21"))
        (some (.str "Justin Bieber")) (some (.int 5))]
      = PyResult.ok [⟨⟨2021, 3, 2⟩, "Justin Bieber", 5⟩]
    ∧ validate_comments [RawComment.arr [.str "5/4/21", .str "Lady Gaga", .int 6]]
      = PyResult.ok [⟨⟨2021, 4, 5⟩, "Lady Gaga", 6⟩] := by
  refine ⟨rfl, rfl, rfl⟩

/-- C9 (amended): when the comments array is homogeneous, both forms validate
identically — an all-triples array normalizes to exactly the objects with the
same fields (extra entries beyond the third are ignored); an array that is
not all-lists but still contains a list fails validation (so a mixed array of
valid triples and valid objects fails rather than succeeding); and in an
all-lists array an under-length list raises an index error instead of a
validation failure. -/
theorem C9_comment_shape_validation :
    (∀ l : List (RawVal × RawVal × RawVal),
        validate_comments (l.map (fun t => RawComment.arr [t.1, t.2.1, t.2.2]))
          = validate_comments
              (l.map (fun t => RawComment.obj (some t.1) (some t.2.1) (some t.2.2))))
    ∧ (∀ (a b c : RawVal) (rest : List RawVal),
        tripleToObj (a :: b :: c :: rest)
          = PyResult.ok (RawComment.obj (some a) (some b) (some c)))
    ∧ (∀ v : List RawComment, v.all isArr = false → (∃ e ∈ v, isArr e = true) →
        ∀ l, validate_comments v ≠ PyResult.ok l)
    ∧ (∀ v : List RawComment, v.all isArr = true →
        (∃ items, RawComment.arr items ∈ v ∧ items.length < 3) →
        validate_comments v = PyResult.exc "IndexError: list index out of range") := by
  refine ⟨?_, ?_, ?_, ?_⟩
  · intro l
    have hall : (l.map (fun t => RawComment.arr [t.1, t.2.1, t.2.2])).all isArr = true := by
      rw [List.all_eq_true]
      intro x hx
      obtain ⟨t, _, rfl⟩ := List.mem_map.mp hx
      rfl
    have hconv : convert_comments (l.map (fun t => RawComment.arr [t.1, t.2.1, t.2.2]))
        = PyResult.ok (l.map (fun t => RawComment.obj (some t.1) (some t.2.1) (some t.2.2))) := by
      unfold convert_comments
      rw [if_pos hall]
      exact mapConvert_triples l
    unfold validate_comments
    rw [hconv, convert_objs]
  · intro a b c rest
    rfl
  · intro v hall hex l h
    have hcv : convert_comments v = PyResult.ok v := by
      unfold convert_comments
      rw [hall]
      rfl
    unfold validate_comments at h
    rw [hcv] at h
    exact mapValidate_arr_not_ok v hex l h
  · intro v hall hshort
    have hcv : convert_comments v = PyResult.exc "IndexError: list index out of range" := by
      unfold convert_comments
      rw [if_pos hall]
      exact mapConvert_short v hshort
    unfold validate_comments
    rw [hcv]

theorem C9_comment_shape_validation_witness :
    (validate_comments [RawComment.arr [.str "2/3/21", .str "Justin Bieber", .int 5]]
        = validate_comments [RawComment.obj (some (.str "2/3/21"))
            (some (.str "Justin Bieber")) (some (.int 5))])
    ∧ tripleToObj [RawVal.str "2/3/21", RawVal.str "Justin Bieber", RawVal.int 5, RawVal.int 9]
        = PyResult.ok (RawComment.obj (some (.str "2/3/21"))
            (some (.str "Justin Bieber")) (some (.int 5)))
    ∧ validate_comments mixedComments ≠ PyResult.ok []
    ∧ validate_comments [RawComment.arr [.str "2/3/21"]]
        = PyResult.exc "IndexError: list index out of range" :=
  ⟨C9_comment_shape_validation.1 [(.str "2/3/21", .str "Justin Bieber", .int 5)],
   C9_comment_shape_validation.2.1 (.str "2/3/21") (.str "Justin Bieber") (.int 5) [.int 9],
   C9_comment_shape_validation.2.2.1 mixedComments (by rfl)
     ⟨RawComment.arr [.str "5/4/21", .str "Lady Gaga", .int 6], by simp [mixedComments], rfl⟩ [],
   C9_comment_shape_validation.2.2.2 [RawComment.arr [.str "2/3/21"]] (by rfl)
     ⟨[.str "2/3/21"], by simp, by decide⟩⟩

/-- A small concrete daily frame spanning two months. -/
def dfW : List DailyRow :=
  [⟨⟨2021, 3, 1⟩, 1, 5, none⟩, ⟨⟨2021, 3, 2⟩, 0, 0, none⟩, ⟨⟨2021, 4, 2⟩, 0, 3, none⟩]

theorem C4_daily_totals_witness :
    calculate_daily_sums (calculate_daily_sums dfW) = calculate_daily_sums dfW
    ∧ ((calculate_daily_sums dfW).all
        (fun r => r.total_activities == some (r.post_day + r.num_comments))) = true
    ∧ (calculate_daily_sums dfW).map (fun r => (r.date, r.post_day, r.num_comments))
        = dfW.map (fun r => (r.date, r.post_day, r.num_comments)) :=
  C4_daily_totals dfW

theorem C5_monthly_conservation_witness :
    ((calculate_monthly_aggregates dfW).map MonthlyRow.num_posts).sum
        = (dfW.map DailyRow.post_day).sum
    ∧ ((calculate_monthly_aggregates dfW).map MonthlyRow.num_comments).sum
        = (dfW.map DailyRow.num_comments).sum :=
  C5_monthly_conservation dfW

theorem C6_monthly_bucket_shape_witness :
    List.Chain' dateLt
      ((calculate_monthly_aggregates (initialise_daily_data gC3)).map MonthlyRow.month_date)
    ∧ (∀ mr1 ∈ calculate_monthly_aggregates (initialise_daily_data gC3),
        ∀ mr2 ∈ calculate_monthly_aggregates (initialise_daily_data gC3),
          mr1.month_date = mr2.month_date → mr1 = mr2)
    ∧ (∀ mr ∈ calculate_monthly_aggregates (initialise_daily_data gC3),
        mr.month_date.day = 1 ∧ ∃ r ∈ initialise_daily_data gC3,
          r.date.year = mr.month_date.year ∧ r.date.month = mr.month_date.month)
    ∧ ∀ (y : Int) (m : Nat),
        ((∃ r ∈ initialise_daily_data gC3, r.date.year = y ∧ r.date.month = m) ↔
          (∃ mr ∈ calculate_monthly_aggregates (initialise_daily_data gC3),
            mr.month_date = ⟨y, m, 1⟩)) :=
  C6_monthly_bucket_shape gC3

theorem C7_monthly_ignores_totals_witness :
    calculate_monthly_aggregates (calculate_daily_sums dfW)
      = calculate_monthly_aggregates dfW :=
  C7_monthly_ignores_totals dfW
